import Mathlib

/-! The A11y Machine: `lib/tester.js`

A shallow embedding of the result aggregation and filtering engine of
`src/lib/tester.js`, followed by theorems about it.

Conventions of the embedding.

* A JavaScript string is a Lean `String`; the functions that inspect characters
  work on its list of characters.
* A value that is either a string or `null`/`undefined` is an `Option String`.
* The closure environment built by `tester(program)` is the record `Tester`.
* The calls that `lateAccumulator` makes on the reporter and on the two
  user callbacks are recorded, in order, as a list of `Effect`s.
-/

namespace A11ym

/-! ## Data model -/

/-- One raw result of the accessibility engine, as read by the `testA11y` callback
(`result.type`, `result.code`, `result.context`, `result.selector`, `result.message`). -/
structure RawResult where
  type : String
  code : Option String
  context : String
  selector : Option String
  message : String
  deriving DecidableEq, Repr

/-- One message of the validator report, as read by the `testHTML` exit handler
(`result.type`, `result.extract`, `result.message`). -/
structure VnuMessage where
  type : String
  extract : Option String
  message : String
  deriving DecidableEq, Repr

/-- The object literal built by both adapters:
`{type, level, code, context, selector, message}`. -/
structure Finding where
  type : String
  level : String
  code : Option String
  context : String
  selector : Option String
  message : String
  deriving DecidableEq, Repr

/-- The fields of `program` that `tester` reads for filtering and aggregation.
`none` stands for `undefined`. -/
structure Program where
  standards : String
  errorLevel : Option String
  filterByCodes : Option String
  excludeByCodes : Option String
  deriving DecidableEq, Repr

/-! ## Severity classifier (lines 83-102) -/

/-- The `switch` of `errorLevelToInteger`: strict comparison with the three
labels, `default` giving `0`. `none` is a value that is not a string. -/
def errorLevelToInteger (errorLevel : Option String) : Nat :=
  match errorLevel with
  | some "notice" => 1
  | some "warning" => 2
  | some "error" => 3
  | _ => 0

/-- The closure `filterByErrorLevels`, with `minimumErrorLevel` passed explicitly:
`minimumErrorLevel <= errorLevelToInteger(errorLevel)`. -/
def filterByErrorLevels (minimumErrorLevel : Nat) (errorLevel : Option String) : Bool :=
  decide (minimumErrorLevel ≤ errorLevelToInteger errorLevel)

/-! ## Regular expressions (the fragment used by lines 106-120) -/

/-- Code unit of a character. -/
def codeOf (c : Char) : Nat := c.toNat

/-- The class `\w` without the unicode flag: `[A-Za-z0-9_]`. -/
def isWordChar (c : Char) : Bool :=
  let n := codeOf c
  (decide (65 ≤ n) && decide (n ≤ 90)) || (decide (97 ≤ n) && decide (n ≤ 122)) ||
    (decide (48 ≤ n) && decide (n ≤ 57)) || decide (n = 95)

/-- The class `\s`: the white space and line terminator code points. -/
def isWhiteSpace (c : Char) : Bool :=
  let n := codeOf c
  decide (n = 9) || decide (n = 10) || decide (n = 11) || decide (n = 12) || decide (n = 13) ||
    decide (n = 32) || decide (n = 160) || decide (n = 5760) ||
    (decide (8192 ≤ n) && decide (n ≤ 8202)) || decide (n = 8232) || decide (n = 8233) ||
    decide (n = 8239) || decide (n = 8287) || decide (n = 12288) || decide (n = 65279)

/-- The syntax characters of a pattern: `^ $ \ . * + ? ( ) [ ] { } |`. -/
def isSyntaxCharacter (c : Char) : Bool :=
  [94, 36, 92, 46, 42, 43, 63, 40, 41, 91, 93, 123, 125, 124].contains (codeOf c)

/-- Canonicalisation of a code unit under the `i` flag. For the characters below
128 this is the upper-case mapping of the basic Latin letters. A character from
128 on never canonicalises to a code unit below 128, so against the basic Latin
pattern characters admitted by `parseDisjunction` it compares as itself. -/
def canonicalize (c : Char) : Nat :=
  let n := codeOf c
  if 97 ≤ n ∧ n ≤ 122 then n - 32 else n

/-- Regular expression nodes of the fragment: the empty pattern, a literal
character, the assertion `\b`, a sequence and a disjunction. -/
inductive Node where
  | empty : Node
  | char (c : Char) : Node
  | wordBoundary : Node
  | seq (a b : Node) : Node
  | alt (a b : Node) : Node
  deriving DecidableEq, Repr

/-- The assertion `\b` at end index `e` of input `s`: the characters at `e - 1` and
`e` differ in being word characters; an index outside the input is not a word
character. -/
def isWordBoundary (s : List Char) (e : Nat) : Bool :=
  let a := match e with
    | 0 => false
    | p + 1 => match s[p]? with
      | some c => isWordChar c
      | none => false
  let b := match s[e]? with
    | some c => isWordChar c
    | none => false
  a != b

/-- Backtracking matcher in continuation style: `matchAt r s i k` tries to match
`r` in `s` from index `i` and hands every end index to the continuation `k`,
alternatives in order, until `k` succeeds. Flag `i` is on. -/
def Node.matchAt : Node → List Char → Nat → (Nat → Bool) → Bool
  | .empty, _, i, k => k i
  | .char c, s, i, k =>
    match s[i]? with
    | some d => canonicalize d == canonicalize c && k (i + 1)
    | none => false
  | .wordBoundary, s, i, k => isWordBoundary s i && k i
  | .seq a b, s, i, k => a.matchAt s i (fun j => b.matchAt s j k)
  | .alt a b, s, i, k => a.matchAt s i k || b.matchAt s i k

/-- The method `test` of a regular expression without the global flag: a match is
looked for from every start index `0 .. length`. -/
def Node.test (r : Node) (s : String) : Bool :=
  (List.range (s.toList.length + 1)).any (fun i => r.matchAt s.toList i (fun _ => true))

/-- The alternatives of a pattern body: the body is cut at every `|`; each
alternative is a run of literal characters. The result is `none` when the body
holds a syntax character other than `|` or a character from 128 on: such a
pattern is outside the fragment embedded here. -/
def parseDisjunction : List Char → Option (List (List Char))
  | [] => some [[]]
  | c :: cs =>
    if codeOf c = 124 then
      (parseDisjunction cs).map (fun as => [] :: as)
    else if isSyntaxCharacter c || decide (128 ≤ codeOf c) then none
    else
      match parseDisjunction cs with
      | some (a :: as) => some ((c :: a) :: as)
      | _ => none

/-- A run of literal characters as a sequence node. -/
def literalNode : List Char → Node
  | [] => .empty
  | c :: cs => .seq (.char c) (literalNode cs)

/-- A list of alternatives as a disjunction node, in order. -/
def disjunctionNode : List (List Char) → Node
  | [] => .empty
  | [a] => literalNode a
  | a :: as => .alt (literalNode a) (disjunctionNode as)

/-- The call `replace(/[\s,]/g, '|')`: every white space character and every comma
becomes `|`. -/
def replaceSeparators (pattern : List Char) : List Char :=
  pattern.map (fun c => if isWhiteSpace c || decide (codeOf c = 44) then Char.ofNat 124 else c)

/-- The expression `new RegExp('\\b(' + pattern.replace(/[\s,]/g, '|') + ')\\b', 'i')`.
Inside the fragment the body has no parenthesis, so the source text parses as
`\b`, the group of the body's disjunction, `\b`. -/
def codesRegex (pattern : String) : Option Node :=
  (parseDisjunction (replaceSeparators pattern.toList)).map
    (fun as => .seq .wordBoundary (.seq (disjunctionNode as) .wordBoundary))

/-! ## The closure environment of `tester(program)` -/

/-- The variables captured by the functions that `tester` builds. The two regular
expressions are `none` when the corresponding option is `undefined`. -/
structure Tester where
  a11yStandard : String
  htmlStandard : Bool
  minimumErrorLevel : Nat
  filterByCodesRegex : Option Node
  excludeByCodesRegex : Option Node
  deriving DecidableEq, Repr

/-- Truthiness of a code: `null`, `undefined` and the empty string are falsy. -/
def truthy (code : Option String) : Bool :=
  match code with
  | some s => !s.toList.isEmpty
  | none => false

/-- The predicate `filterByCodes`: `function () { return true; }` by default, and
`code && filterByCodesRegex.test(code)` when a pattern is configured. The result is
the truthiness of the returned value. -/
def Tester.filterByCodes (t : Tester) (code : Option String) : Bool :=
  match t.filterByCodesRegex with
  | none => true
  | some r =>
    match code with
    | some s => truthy code && r.test s
    | none => false

/-- The predicate `excludeByCodes`: `function () { return true; }` by default, and
`code && !excludeByCodesRegex.test(code)` when a pattern is configured. -/
def Tester.excludeByCodes (t : Tester) (code : Option String) : Bool :=
  match t.excludeByCodesRegex with
  | none => true
  | some r =>
    match code with
    | some s => truthy code && !r.test s
    | none => false

/-- The method `split(',')` on a list of characters. -/
def splitComma : List Char → List (List Char)
  | [] => [[]]
  | c :: cs =>
    if codeOf c = 44 then [] :: splitComma cs
    else
      match splitComma cs with
      | a :: as => (c :: a) :: as
      | [] => [[c]]

/-- The call `splice(index, 1)` on the array of standards. -/
def spliceOne : Nat → List (List Char) → List (List Char)
  | _, [] => []
  | 0, _ :: as => as
  | n + 1, a :: as => a :: spliceOne n as

/-- Lines 52-63: `standards.split(',')`, `indexOf('HTML')`, and the two branches
that set `htmlStandard` and `a11yStandard`. -/
def parseStandards (standards : String) : String × Bool :=
  let parts := splitComma standards.toList
  match parts.indexOf? "HTML".toList with
  | some i => (String.mk (spliceOne i parts).flatten, true)
  | none => (String.mk parts.flatten, false)

/-- An optional pattern compiled: `undefined` gives no regular expression, a
pattern inside the fragment gives its regular expression, and a pattern outside
the fragment makes the construction undefined in this embedding. -/
def optionalRegex : Option String → Option (Option Node)
  | none => some none
  | some p => (codesRegex p).map some

/-- The function `tester(program)`, up to the construction of the closures. It is
`none` when an include or exclude pattern is outside the embedded fragment of
regular expressions. -/
def tester (program : Program) : Option Tester :=
  match optionalRegex program.filterByCodes, optionalRegex program.excludeByCodes with
  | some f, some e =>
    some {
      a11yStandard := (parseStandards program.standards).1
      htmlStandard := (parseStandards program.standards).2
      minimumErrorLevel := errorLevelToInteger program.errorLevel
      filterByCodesRegex := f
      excludeByCodesRegex := e }
  | _, _ => none

/-! ## The adapters (lines 122-192 and the callbacks of lines 212-255) -/

/-- The object literal of lines 223-235, built from one raw accessibility result. -/
def a11yFinding (result : RawResult) : Finding :=
  { type := "a11y"
    level := result.type
    code := result.code
    context := result.context
    selector := result.selector
    message := result.message }

/-- Lines 219-244: `results.map(...).filter(...)` of the `testA11y` callback, the
filter being `filterByErrorLevels(result.level) && filterByCodes(result.code) &&
excludeByCodes(result.code)`. -/
def Tester.a11yResults (t : Tester) (results : List RawResult) : List Finding :=
  (results.map a11yFinding).filter
    (fun result =>
      filterByErrorLevels t.minimumErrorLevel (some result.level) &&
        t.filterByCodes result.code &&
        t.excludeByCodes result.code)

/-- The call `replace('info', 'notice')` with a string pattern: the first occurrence
of `info` is replaced. -/
def replaceInfo : List Char → List Char
  | [] => []
  | c :: cs =>
    if "info".toList.isPrefixOf (c :: cs) then "notice".toList ++ (c :: cs).drop 4
    else c :: replaceInfo cs

/-- The method `trim()`: white space and line terminators are removed at both ends. -/
def trim (s : List Char) : List Char :=
  ((s.dropWhile isWhiteSpace).reverse.dropWhile isWhiteSpace).reverse

/-- The object literal of lines 157-169, built from one validator message. -/
def htmlFinding (result : VnuMessage) : Finding :=
  { type := "html"
    level := String.mk (replaceInfo result.type.toList)
    code := none
    context := String.mk (trim (if truthy result.extract then result.extract.getD "" else "").toList)
    selector := none
    message := result.message }

/-- The function `testHTML` as seen by its callback: `onComplete(null, [])` at once
when `htmlStandard` is not `true`, and otherwise, at the exit of the validator,
`onComplete(null, messages.map(...).filter(...))` for the messages of its report.
The first argument of `onComplete` is always `null` and is left out. -/
def Tester.testHTML (t : Tester) (messages : List VnuMessage) : List Finding :=
  if t.htmlStandard != true then []
  else
    (messages.map htmlFinding).filter
      (fun result => filterByErrorLevels t.minimumErrorLevel (some result.level))

/-- The function `testA11y` as seen by its callback: `onComplete(null, [])` at once
when `a11yStandard` is falsy (the empty string), and otherwise the arguments
`(error, results)` that the engine hands to the callback. -/
def Tester.testA11y (t : Tester) (error : Option String) (results : List RawResult) :
    Option String × List RawResult :=
  if t.a11yStandard.toList.isEmpty then (none, []) else (error, results)

/-! ## The aggregator (lines 194-255) -/

/-- A call made by an accumulator: on a method of the reporter (`options.log.results`
or `options.log.error`, with the accumulator and the URL) or on one of the two
callbacks of the run function (with the accumulator). An error value is a string. -/
inductive Effect where
  | logResults (accumulator : List Finding) (url : String) : Effect
  | logError (accumulator : List String) (url : String) : Effect
  | onSuccess (accumulator : List Finding) : Effect
  | onError (accumulator : List String) : Effect
  deriving DecidableEq, Repr

/-- The two variables captured by the function that `lateAccumulator` returns. -/
structure LateAccumulator (α : Type) where
  counter : Int
  accumulator : List α
  deriving DecidableEq, Repr

/-- The call `lateAccumulator(counter, callback)`: a fresh accumulator. -/
def lateAccumulator {α : Type} (counter : Int) : LateAccumulator α :=
  { counter := counter, accumulator := [] }

/-- One call `(values, logger)` of the function returned by
`lateAccumulator(counter, callback)` for the given `url`: `values` are concatenated
to the accumulator, the counter is decremented, and when it is then `0` the logger
is called with the accumulator and the URL, then the callback with the accumulator.
The result is the new captured state and the calls made. -/
def LateAccumulator.call {α : Type} (callback : List α → Effect) (url : String)
    (st : LateAccumulator α) (values : List α) (logger : List α → String → Effect) :
    LateAccumulator α × List Effect :=
  let accumulator := st.accumulator ++ values
  let counter := st.counter - 1
  if counter = 0 then
    ({ counter := counter, accumulator := accumulator }, [logger accumulator url, callback accumulator])
  else
    ({ counter := counter, accumulator := accumulator }, [])

/-- A finite sequence of calls `(values, logger)` of the function returned by
`lateAccumulator(counter, callback)`, made one after the other on the captured
state: the final state and all the calls made, in order. -/
def LateAccumulator.callAll {α : Type} (callback : List α → Effect) (url : String)
    (st : LateAccumulator α) :
    List (List α × (List α → String → Effect)) → LateAccumulator α × List Effect
  | [] => (st, [])
  | c :: cs =>
    let r := st.call callback url c.1 c.2
    let r2 := LateAccumulator.callAll callback url r.1 cs
    (r2.1, r.2 ++ r2.2)

/-- A completion of one of the two adapters, given by what its collaborator
produced: the arguments `(error, results)` of the accessibility engine (`error` is
`none` when it is falsy), or the messages of the validator report at the exit of
the subprocess. An adapter that is switched off completes all the same and
ignores what the completion carries. -/
inductive Completion where
  | a11y (error : Option String) (results : List RawResult) : Completion
  | html (messages : List VnuMessage) : Completion
  deriving DecidableEq, Repr

/-- The state of one episode of the run function: `_onSuccess` and `_onError`. -/
structure Episode where
  _onSuccess : LateAccumulator Finding
  _onError : LateAccumulator String
  deriving DecidableEq, Repr

/-- Lines 208-209: both accumulators start with the counter `2`. -/
def Episode.init : Episode :=
  { _onSuccess := lateAccumulator 2, _onError := lateAccumulator 2 }

/-- One completion handled by the callbacks of lines 214-247 and 252-254: the
`testA11y` callback calls `_onError(error, options.log.error)` on an error and
`_onSuccess(results, options.log.results)` otherwise; the `testHTML` callback calls
`_onSuccess(results, options.log.results)`. -/
def Tester.step (t : Tester) (url : String) (e : Episode) : Completion → Episode × List Effect
  | .a11y error results =>
    match t.testA11y error results with
    | (some err, _) =>
      let r := e._onError.call Effect.onError url [err] Effect.logError
      ({ e with _onError := r.1 }, r.2)
    | (none, rs) =>
      let r := e._onSuccess.call Effect.onSuccess url (t.a11yResults rs) Effect.logResults
      ({ e with _onSuccess := r.1 }, r.2)
  | .html messages =>
    let r := e._onSuccess.call Effect.onSuccess url (t.testHTML messages) Effect.logResults
    ({ e with _onSuccess := r.1 }, r.2)

/-- The episode after a sequence of completions, with the calls made on the way. -/
def Tester.runFrom (t : Tester) (url : String) (e : Episode) :
    List Completion → Episode × List Effect
  | [] => (e, [])
  | c :: cs =>
    let r := t.step url e c
    let r2 := t.runFrom url r.1 cs
    (r2.1, r.2 ++ r2.2)

/-- The run function `function (url, onSuccess, onError)` followed through the given
completions: the calls made on the reporter and on the callbacks, in order. -/
def Tester.run (t : Tester) (url : String) (completions : List Completion) : List Effect :=
  (t.runFrom url Episode.init completions).2

/-- Effects of the success channel: `options.log.results` and `onSuccess`. -/
def Effect.isSuccessChannel : Effect → Bool
  | .logResults _ _ => true
  | .onSuccess _ => true
  | _ => false

/-- Effects of the error channel: `options.log.error` and `onError`. -/
def Effect.isErrorChannel : Effect → Bool
  | .logError _ _ => true
  | .onError _ => true
  | _ => false

/-- Calls of the callback `onSuccess`. -/
def Effect.isOnSuccess : Effect → Bool
  | .onSuccess _ => true
  | _ => false

/-- Calls of the callback `onError`. -/
def Effect.isOnError : Effect → Bool
  | .onError _ => true
  | _ => false

/-! ## Whole-word occurrence, from the words of the specification -/

/-- From the specification: a letter, a digit or an underscore. -/
def isLetterDigitUnderscore (c : Char) : Bool :=
  "ABCDEFGHIJKLMNOPQRSTUVWXYZabcdefghijklmnopqrstuvwxyz0123456789_".toList.contains c

/-- From the specification: the code `w` occurs in `s` as a whole word,
case-insensitively: `s` is `pre ++ mid ++ post` where `mid` is `w` up to the case of
its letters, `pre` does not end with a letter, digit or underscore and `post` does not
start with one. -/
def OccursAsWholeWord (w s : List Char) : Prop :=
  ∃ pre mid post, s = pre ++ mid ++ post ∧
    mid.map Char.toLower = w.map Char.toLower ∧
    (∀ c, pre.getLast? = some c → isLetterDigitUnderscore c = false) ∧
    (∀ c, post.head? = some c → isLetterDigitUnderscore c = false)

/-- From the specification: a pattern of codes separated by single commas. -/
def commaSeparated : List (List Char) → List Char
  | [] => []
  | [w] => w
  | w :: ws => w ++ Char.ofNat 44 :: commaSeparated ws

/-! ## Theorems: severity classifier -/

/-- C7: `errorLevelToInteger` is a total function sending `notice` to 1, `warning`
to 2, `error` to 3 and every other value to 0; its value is always one of 0, 1, 2, 3
and the three labels are ranked in increasing order. -/
theorem errorLevelToInteger_spec :
    (∀ l : Option String, errorLevelToInteger l =
      if l = some "notice" then 1 else if l = some "warning" then 2
      else if l = some "error" then 3 else 0) ∧
    (∀ l : Option String, errorLevelToInteger l ∈ [0, 1, 2, 3]) ∧
    errorLevelToInteger (some "notice") = 1 ∧
    errorLevelToInteger (some "warning") = 2 ∧
    errorLevelToInteger (some "error") = 3 ∧
    errorLevelToInteger (some "unknown") = 0 ∧
    errorLevelToInteger none = 0 ∧
    errorLevelToInteger (some "notice") < errorLevelToInteger (some "warning") ∧
    errorLevelToInteger (some "warning") < errorLevelToInteger (some "error") := by
  have key : ∀ l : Option String, errorLevelToInteger l =
      if l = some "notice" then 1 else if l = some "warning" then 2
      else if l = some "error" then 3 else 0 := by
    intro l
    unfold errorLevelToInteger
    split <;> simp_all
  refine ⟨key, ?_, by decide, by decide, by decide, by decide, by decide, by decide, by decide⟩
  intro l
  rw [key l]
  split_ifs <;> simp

/-- C6: with minimum level `E`, `filterByErrorLevels` accepts a level `L` exactly when
the rank of `L` is at least the rank of `E`; when the rank of `E` is 0 every level is
accepted, recognised or not. -/
theorem filterByErrorLevels_iff (E L : Option String) :
    (filterByErrorLevels (errorLevelToInteger E) L = true ↔
      errorLevelToInteger L ≥ errorLevelToInteger E) ∧
    (errorLevelToInteger E = 0 → filterByErrorLevels (errorLevelToInteger E) L = true) := by
  constructor
  · simp [filterByErrorLevels]
  · intro h
    simp [filterByErrorLevels, h]

/-- Witness of `filterByErrorLevels_iff`: an unrecognised minimum level has rank 0 and
lets an unrecognised finding level through. -/
theorem filterByErrorLevels_iff_witness :
    errorLevelToInteger (some "verbose") = 0 ∧
      filterByErrorLevels (errorLevelToInteger (some "verbose")) (some "fatal") = true :=
  ⟨by decide, (filterByErrorLevels_iff (some "verbose") (some "fatal")).2 (by decide)⟩

/-! ## Theorems: aggregator -/

/-- A call on an accumulator whose counter is not `1` makes no call. -/
lemma LateAccumulator.call_silent {α : Type} (callback : List α → Effect) (url : String)
    (st : LateAccumulator α) (values : List α) (logger : List α → String → Effect)
    (h : st.counter ≠ 1) : (st.call callback url values logger).2 = [] := by
  unfold LateAccumulator.call
  have : ¬ (st.counter - 1 = 0) := by omega
  simp [this]

/-- A call on an accumulator decrements its counter. -/
lemma LateAccumulator.call_counter {α : Type} (callback : List α → Effect) (url : String)
    (st : LateAccumulator α) (values : List α) (logger : List α → String → Effect) :
    (st.call callback url values logger).1.counter = st.counter - 1 := by
  simp only [LateAccumulator.call]
  split <;> rfl

/-- The two outcomes of a call on an accumulator. -/
lemma LateAccumulator.call_cases {α : Type} (callback : List α → Effect) (url : String)
    (st : LateAccumulator α) (values : List α) (logger : List α → String → Effect) :
    (st.counter ≠ 1 ∧ (st.call callback url values logger).2 = []) ∨
    (st.counter = 1 ∧ (st.call callback url values logger).2 =
      [logger (st.accumulator ++ values) url, callback (st.accumulator ++ values)]) := by
  by_cases h : st.counter = 1
  · right
    refine ⟨h, ?_⟩
    simp [LateAccumulator.call, h]
  · left
    exact ⟨h, LateAccumulator.call_silent _ _ _ _ _ h⟩

/-- A step never increases the counter of `_onSuccess`; the calls of the success
channel it makes are none, or the reporter's `results` and `onSuccess` with one
accumulator, and then the counter is `0` afterwards. -/
lemma Tester.step_success (t : Tester) (url : String) (e : Episode) (c : Completion) :
    (t.step url e c).1._onSuccess.counter ≤ e._onSuccess.counter ∧
    (((t.step url e c).2.filter Effect.isSuccessChannel = [] ∧
        (e._onSuccess.counter ≤ 0 → (t.step url e c).1._onSuccess.counter ≤ 0)) ∨
      (∃ acc, (t.step url e c).2.filter Effect.isSuccessChannel =
          [.logResults acc url, .onSuccess acc] ∧
        e._onSuccess.counter = 1 ∧ (t.step url e c).1._onSuccess.counter = 0)) := by
  cases c with
  | a11y error results =>
    simp only [Tester.step]
    split
    · rename_i err x hx
      refine ⟨le_refl _, Or.inl ⟨?_, fun h => h⟩⟩
      rcases LateAccumulator.call_cases Effect.onError url e._onError [err] Effect.logError
        with ⟨_, h⟩ | ⟨_, h⟩ <;> simp [h, Effect.isSuccessChannel]
    · rename_i rs hx
      have hc := LateAccumulator.call_counter Effect.onSuccess url e._onSuccess
        (t.a11yResults rs) Effect.logResults
      refine ⟨by simp only [hc]; omega, ?_⟩
      rcases LateAccumulator.call_cases Effect.onSuccess url e._onSuccess
        (t.a11yResults rs) Effect.logResults with ⟨h1, h⟩ | ⟨h1, h⟩
      · left
        refine ⟨by simp [h], fun h0 => by simp only [hc]; omega⟩
      · right
        exact ⟨_, by rw [h]; rfl, h1, by simp only [hc]; omega⟩
  | html messages =>
    simp only [Tester.step]
    have hc := LateAccumulator.call_counter Effect.onSuccess url e._onSuccess
      (t.testHTML messages) Effect.logResults
    refine ⟨by simp only [hc]; omega, ?_⟩
    rcases LateAccumulator.call_cases Effect.onSuccess url e._onSuccess
      (t.testHTML messages) Effect.logResults with ⟨h1, h⟩ | ⟨h1, h⟩
    · left
      refine ⟨by simp [h], fun h0 => by simp only [hc]; omega⟩
    · right
      exact ⟨_, by rw [h]; rfl, h1, by simp only [hc]; omega⟩

/-- The counterpart of `Tester.step_success` for `_onError`. -/
lemma Tester.step_error (t : Tester) (url : String) (e : Episode) (c : Completion) :
    (t.step url e c).1._onError.counter ≤ e._onError.counter ∧
    (((t.step url e c).2.filter Effect.isErrorChannel = [] ∧
        (e._onError.counter ≤ 0 → (t.step url e c).1._onError.counter ≤ 0)) ∨
      (∃ acc, (t.step url e c).2.filter Effect.isErrorChannel =
          [.logError acc url, .onError acc] ∧
        e._onError.counter = 1 ∧ (t.step url e c).1._onError.counter = 0)) := by
  cases c with
  | a11y error results =>
    simp only [Tester.step]
    split
    · rename_i err x hx
      have hc := LateAccumulator.call_counter Effect.onError url e._onError [err]
        Effect.logError
      refine ⟨by simp only [hc]; omega, ?_⟩
      rcases LateAccumulator.call_cases Effect.onError url e._onError [err] Effect.logError
        with ⟨h1, h⟩ | ⟨h1, h⟩
      · left
        refine ⟨by simp [h], fun h0 => by simp only [hc]; omega⟩
      · right
        exact ⟨_, by rw [h]; rfl, h1, by simp only [hc]; omega⟩
    · rename_i rs hx
      refine ⟨le_refl _, Or.inl ⟨?_, fun h => h⟩⟩
      rcases LateAccumulator.call_cases Effect.onSuccess url e._onSuccess
        (t.a11yResults rs) Effect.logResults
        with ⟨_, h⟩ | ⟨_, h⟩ <;> simp [h, Effect.isErrorChannel]
  | html messages =>
    simp only [Tester.step]
    refine ⟨le_refl _, Or.inl ⟨?_, fun h => h⟩⟩
    rcases LateAccumulator.call_cases Effect.onSuccess url e._onSuccess
      (t.testHTML messages) Effect.logResults
      with ⟨_, h⟩ | ⟨_, h⟩ <;> simp [h, Effect.isErrorChannel]

/-- Once the counter of `_onSuccess` is `0` or less, no call of the success channel
is made any more. -/
lemma Tester.runFrom_success_spent (t : Tester) (url : String) (cs : List Completion) :
    ∀ e : Episode, e._onSuccess.counter ≤ 0 →
      (t.runFrom url e cs).2.filter Effect.isSuccessChannel = [] := by
  induction cs with
  | nil => intro e _; rfl
  | cons c cs ih =>
    intro e he
    simp only [Tester.runFrom, List.filter_append]
    rcases t.step_success url e c with ⟨_, ⟨h1, h2⟩ | ⟨acc, _, h3, _⟩⟩
    · rw [h1, ih _ (h2 he)]; rfl
    · omega

/-- Once the counter of `_onError` is `0` or less, no call of the error channel is
made any more. -/
lemma Tester.runFrom_error_spent (t : Tester) (url : String) (cs : List Completion) :
    ∀ e : Episode, e._onError.counter ≤ 0 →
      (t.runFrom url e cs).2.filter Effect.isErrorChannel = [] := by
  induction cs with
  | nil => intro e _; rfl
  | cons c cs ih =>
    intro e he
    simp only [Tester.runFrom, List.filter_append]
    rcases t.step_error url e c with ⟨_, ⟨h1, h2⟩ | ⟨acc, _, h3, _⟩⟩
    · rw [h1, ih _ (h2 he)]; rfl
    · omega

/-- The calls of the success channel over any sequence of completions: none, or the
reporter's `results` followed by `onSuccess`, both with one accumulator. -/
lemma Tester.runFrom_success_shape (t : Tester) (url : String) (cs : List Completion) :
    ∀ e : Episode,
      (t.runFrom url e cs).2.filter Effect.isSuccessChannel = [] ∨
      ∃ acc, (t.runFrom url e cs).2.filter Effect.isSuccessChannel =
        [.logResults acc url, .onSuccess acc] := by
  induction cs with
  | nil => intro e; left; rfl
  | cons c cs ih =>
    intro e
    simp only [Tester.runFrom, List.filter_append]
    rcases t.step_success url e c with ⟨_, ⟨h1, _⟩ | ⟨acc, h1, _, h3⟩⟩
    · rw [h1]
      simpa using ih (t.step url e c).1
    · right
      refine ⟨acc, ?_⟩
      rw [h1, t.runFrom_success_spent url cs _ (le_of_eq h3)]
      rfl

/-- The calls of the error channel over any sequence of completions: none, or the
reporter's `error` followed by `onError`, both with one accumulator. -/
lemma Tester.runFrom_error_shape (t : Tester) (url : String) (cs : List Completion) :
    ∀ e : Episode,
      (t.runFrom url e cs).2.filter Effect.isErrorChannel = [] ∨
      ∃ acc, (t.runFrom url e cs).2.filter Effect.isErrorChannel =
        [.logError acc url, .onError acc] := by
  induction cs with
  | nil => intro e; left; rfl
  | cons c cs ih =>
    intro e
    simp only [Tester.runFrom, List.filter_append]
    rcases t.step_error url e c with ⟨_, ⟨h1, _⟩ | ⟨acc, h1, _, h3⟩⟩
    · rw [h1]
      simpa using ih (t.step url e c).1
    · right
      refine ⟨acc, ?_⟩
      rw [h1, t.runFrom_error_spent url cs _ (le_of_eq h3)]
      rfl

/-- C1: when both adapters complete on the success channel, in either order, no call
is made at the first completion, and after the second the calls are the reporter's
`results` followed by exactly one `onSuccess`, whose argument is the list of the
adapter that completed first followed by the list of the other; it holds exactly the
findings of both. -/
theorem run_both_succeed (t : Tester) (url : String) (ra : List RawResult)
    (msgs : List VnuMessage) :
    t.run url [.a11y none ra] = [] ∧
    t.run url [.html msgs] = [] ∧
    t.run url [.a11y none ra, .html msgs] =
      [.logResults (t.a11yResults (t.testA11y none ra).2 ++ t.testHTML msgs) url,
       .onSuccess (t.a11yResults (t.testA11y none ra).2 ++ t.testHTML msgs)] ∧
    t.run url [.html msgs, .a11y none ra] =
      [.logResults (t.testHTML msgs ++ t.a11yResults (t.testA11y none ra).2) url,
       .onSuccess (t.testHTML msgs ++ t.a11yResults (t.testA11y none ra).2)] ∧
    ((t.run url [.a11y none ra, .html msgs]).filter Effect.isOnSuccess).length = 1 ∧
    ((t.run url [.html msgs, .a11y none ra]).filter Effect.isOnSuccess).length = 1 ∧
    (∀ f, (f ∈ t.a11yResults (t.testA11y none ra).2 ++ t.testHTML msgs ↔
        f ∈ t.a11yResults (t.testA11y none ra).2 ∨ f ∈ t.testHTML msgs) ∧
      (f ∈ t.testHTML msgs ++ t.a11yResults (t.testA11y none ra).2 ↔
        f ∈ t.a11yResults (t.testA11y none ra).2 ∨ f ∈ t.testHTML msgs)) := by
  have hA : (t.testA11y none ra).1 = none := by
    unfold Tester.testA11y
    split <;> rfl
  have e1 : t.run url [.a11y none ra] = [] := by
    simp [Tester.run, Tester.runFrom, Tester.step, Episode.init, lateAccumulator,
      LateAccumulator.call]
    split <;> simp_all
  have e2 : t.run url [.html msgs] = [] := by
    simp [Tester.run, Tester.runFrom, Tester.step, Episode.init, lateAccumulator,
      LateAccumulator.call]
  have e3 : t.run url [.a11y none ra, .html msgs] =
      [.logResults (t.a11yResults (t.testA11y none ra).2 ++ t.testHTML msgs) url,
       .onSuccess (t.a11yResults (t.testA11y none ra).2 ++ t.testHTML msgs)] := by
    rcases h : t.testA11y none ra with ⟨x, rs⟩
    rw [h] at hA
    simp only at hA
    subst hA
    simp [Tester.run, Tester.runFrom, Tester.step, Episode.init, lateAccumulator,
      LateAccumulator.call, h]
  have e4 : t.run url [.html msgs, .a11y none ra] =
      [.logResults (t.testHTML msgs ++ t.a11yResults (t.testA11y none ra).2) url,
       .onSuccess (t.testHTML msgs ++ t.a11yResults (t.testA11y none ra).2)] := by
    rcases h : t.testA11y none ra with ⟨x, rs⟩
    rw [h] at hA
    simp only at hA
    subst hA
    simp [Tester.run, Tester.runFrom, Tester.step, Episode.init, lateAccumulator,
      LateAccumulator.call, h]
  refine ⟨e1, e2, e3, e4, ?_, ?_, ?_⟩
  · rw [e3]; simp [Effect.isOnSuccess]
  · rw [e4]; simp [Effect.isOnSuccess]
  · intro f
    simp only [List.mem_append, true_and]
    exact or_comm

/-- C2 (what the code does): with the accessibility engine switched on, when it
reports an error and the markup adapter completes, in either order, the completed
episode has made no call at all: `onError` is not invoked, and neither is the
reporter. The counter of `_onError` starts at 2 and only the `testA11y` callback
ever decrements it. -/
theorem run_a11y_error_is_silent (t : Tester) (url error : String) (ra : List RawResult)
    (msgs : List VnuMessage) (h : t.a11yStandard.toList.isEmpty = false) :
    t.run url [.a11y (some error) ra, .html msgs] = [] ∧
    t.run url [.html msgs, .a11y (some error) ra] = [] := by
  have hA : t.testA11y (some error) ra = (some error, ra) := by
    unfold Tester.testA11y
    rw [h]
    rfl
  constructor <;>
    simp [Tester.run, Tester.runFrom, Tester.step, Episode.init, lateAccumulator,
      LateAccumulator.call, hA]

/-- Witness of `run_a11y_error_is_silent`: the configuration
`standards = "WCAG2AA,HTML"`, an engine error and an empty validator report. -/
theorem run_a11y_error_is_silent_witness :
    tester { standards := "WCAG2AA,HTML", errorLevel := none,
             filterByCodes := none, excludeByCodes := none } =
      some { a11yStandard := "WCAG2AA", htmlStandard := true, minimumErrorLevel := 0,
             filterByCodesRegex := none, excludeByCodesRegex := none } ∧
    Tester.run { a11yStandard := "WCAG2AA", htmlStandard := true, minimumErrorLevel := 0,
                 filterByCodesRegex := none, excludeByCodesRegex := none }
      "http://example.org/" [.a11y (some "boom") [], .html []] = [] ∧
    Tester.run { a11yStandard := "WCAG2AA", htmlStandard := true, minimumErrorLevel := 0,
                 filterByCodesRegex := none, excludeByCodesRegex := none }
      "http://example.org/" [.html [], .a11y (some "boom") []] = [] :=
  ⟨by decide,
    run_a11y_error_is_silent
      { a11yStandard := "WCAG2AA", htmlStandard := true, minimumErrorLevel := 0,
        filterByCodesRegex := none, excludeByCodesRegex := none }
      "http://example.org/" "boom" [] [] (by decide)⟩

/-- C3: after a single completion, of either adapter and on either channel, no call
has been made: neither `onSuccess`, nor `onError`, nor a method of the reporter. -/
theorem run_one_completion_is_silent (t : Tester) (url : String) (c : Completion) :
    t.run url [c] = [] := by
  cases c with
  | a11y error results =>
    simp only [Tester.run, Tester.runFrom, Tester.step, List.append_nil]
    split
    · exact LateAccumulator.call_silent _ _ _ _ _ (by decide)
    · exact LateAccumulator.call_silent _ _ _ _ _ (by decide)
  | html messages =>
    simp only [Tester.run, Tester.runFrom, Tester.step, List.append_nil]
    exact LateAccumulator.call_silent _ _ _ _ _ (by decide)

/-- C4: over any sequence of completions of an episode, whenever `onSuccess` is called
with an accumulator, the calls of the success channel are exactly the reporter's
`results` with that accumulator and the episode's URL, once, followed by that call of
`onSuccess`; likewise `onError` is preceded by exactly one call of the reporter's
`error` with the same accumulator and the URL. -/
theorem logger_once_before_callback (t : Tester) (url : String) (cs : List Completion) :
    (∀ acc, Effect.onSuccess acc ∈ t.run url cs →
      (t.run url cs).filter Effect.isSuccessChannel =
        [.logResults acc url, .onSuccess acc]) ∧
    (∀ acc, Effect.onError acc ∈ t.run url cs →
      (t.run url cs).filter Effect.isErrorChannel =
        [.logError acc url, .onError acc]) := by
  constructor
  · intro acc h
    have hm : Effect.onSuccess acc ∈ (t.run url cs).filter Effect.isSuccessChannel :=
      List.mem_filter.mpr ⟨h, rfl⟩
    rcases t.runFrom_success_shape url cs Episode.init with h0 | ⟨acc2, h2⟩
    · simp only [Tester.run] at hm
      rw [h0] at hm
      cases hm
    · simp only [Tester.run] at hm ⊢
      rw [h2] at hm ⊢
      simp only [List.mem_cons, reduceCtorEq, Effect.onSuccess.injEq, List.not_mem_nil,
        or_false, false_or] at hm
      rw [hm]
  · intro acc h
    have hm : Effect.onError acc ∈ (t.run url cs).filter Effect.isErrorChannel :=
      List.mem_filter.mpr ⟨h, rfl⟩
    rcases t.runFrom_error_shape url cs Episode.init with h0 | ⟨acc2, h2⟩
    · simp only [Tester.run] at hm
      rw [h0] at hm
      cases hm
    · simp only [Tester.run] at hm ⊢
      rw [h2] at hm ⊢
      simp only [List.mem_cons, reduceCtorEq, Effect.onError.injEq, List.not_mem_nil,
        or_false, false_or] at hm
      rw [hm]

/-- Witness of `logger_once_before_callback`: an episode in which the markup adapter
completes first and the accessibility engine then returns one result. -/
theorem logger_once_before_callback_witness :
    Effect.onSuccess [a11yFinding ⟨"error", some "WCAG2AA.1_1", "<img>", some "html > img", "m"⟩] ∈
      Tester.run ⟨"WCAG2AA", true, 0, none, none⟩ "http://example.org/"
        [.html [], .a11y none [⟨"error", some "WCAG2AA.1_1", "<img>", some "html > img", "m"⟩]] ∧
    (Tester.run ⟨"WCAG2AA", true, 0, none, none⟩ "http://example.org/"
        [.html [], .a11y none [⟨"error", some "WCAG2AA.1_1", "<img>", some "html > img", "m"⟩]]).filter
        Effect.isSuccessChannel =
      [.logResults [a11yFinding ⟨"error", some "WCAG2AA.1_1", "<img>", some "html > img", "m"⟩]
          "http://example.org/",
       .onSuccess [a11yFinding ⟨"error", some "WCAG2AA.1_1", "<img>", some "html > img", "m"⟩]] :=
  ⟨by decide,
    (logger_once_before_callback ⟨"WCAG2AA", true, 0, none, none⟩ "http://example.org/"
      [.html [], .a11y none [⟨"error", some "WCAG2AA.1_1", "<img>", some "html > img", "m"⟩]]).1
      _ (by decide)⟩

/-! ## Theorems: filtering -/

/-- C5: the accessibility adapter hands to the success channel exactly the raw
results, in their order, whose type passes the severity predicate and whose code
passes both the include and the exclude predicate, each turned into a finding whose
level is the raw type and whose code, context, selector and message are those of the
raw result. -/
theorem a11yResults_spec (t : Tester) (results : List RawResult) :
    t.a11yResults results =
      (results.filter (fun r =>
        filterByErrorLevels t.minimumErrorLevel (some r.type) &&
          t.filterByCodes r.code && t.excludeByCodes r.code)).map a11yFinding ∧
    List.Sublist (t.a11yResults results) (results.map a11yFinding) ∧
    (∀ r : RawResult, (a11yFinding r).level = r.type ∧ (a11yFinding r).code = r.code ∧
      (a11yFinding r).context = r.context ∧ (a11yFinding r).selector = r.selector ∧
      (a11yFinding r).message = r.message) := by
  refine ⟨?_, ?_, fun r => ⟨rfl, rfl, rfl, rfl, rfl⟩⟩
  · unfold Tester.a11yResults
    rw [List.filter_map]
    rfl
  · exact List.filter_sublist _

/-- The regular expression of an option of `program` is absent exactly when the
option is `undefined`. -/
lemma optionalRegex_eq_none_iff (o : Option String) (r : Option Node)
    (h : optionalRegex o = some r) : r = none ↔ o = none := by
  cases o with
  | none =>
    simp only [optionalRegex, Option.some.injEq] at h
    simp [← h]
  | some p =>
    simp only [optionalRegex, Option.map_eq_some'] at h
    obtain ⟨a, _, ha⟩ := h
    simp [← ha]

/-- The fields of the environment that `tester` builds. -/
lemma tester_fields (p : Program) (t : Tester) (h : tester p = some t) :
    optionalRegex p.filterByCodes = some t.filterByCodesRegex ∧
    optionalRegex p.excludeByCodes = some t.excludeByCodesRegex ∧
    t.minimumErrorLevel = errorLevelToInteger p.errorLevel ∧
    t.a11yStandard = (parseStandards p.standards).1 ∧
    t.htmlStandard = (parseStandards p.standards).2 := by
  unfold tester at h
  split at h
  · rename_i f e hf he
    simp only [Option.some.injEq] at h
    subst h
    exact ⟨hf, he, rfl, rfl, rfl⟩
  · cases h

/-- C10: without an include pattern the include predicate accepts every code, `null`
included; without an exclude pattern the exclude predicate accepts every code, `null`
included; with an include pattern the include predicate rejects the code `null`. -/
theorem default_code_predicates (p : Program) (t : Tester) (h : tester p = some t) :
    (p.filterByCodes = none → ∀ code, t.filterByCodes code = true) ∧
    (p.excludeByCodes = none → ∀ code, t.excludeByCodes code = true) ∧
    (p.filterByCodes ≠ none → t.filterByCodes none = false) := by
  obtain ⟨hf, he, -⟩ := tester_fields p t h
  refine ⟨?_, ?_, ?_⟩
  · intro hp code
    have := (optionalRegex_eq_none_iff _ _ hf).mpr hp
    simp [Tester.filterByCodes, this]
  · intro hp code
    have := (optionalRegex_eq_none_iff _ _ he).mpr hp
    simp [Tester.excludeByCodes, this]
  · intro hp
    have hne : t.filterByCodesRegex ≠ none := fun hn =>
      hp ((optionalRegex_eq_none_iff _ _ hf).mp hn)
    unfold Tester.filterByCodes
    split
    · rename_i hn; exact absurd hn hne
    · rfl

/-- Witness of `default_code_predicates`: a configuration with the include pattern
`H37` and no exclude pattern, and the configuration without any pattern. -/
theorem default_code_predicates_witness :
    tester ⟨"WCAG2AA", none, some "H37", none⟩ =
      some ⟨"WCAG2AA", false, 0,
        some (.seq .wordBoundary (.seq (literalNode "H37".toList) .wordBoundary)), none⟩ ∧
    tester ⟨"WCAG2AA", none, none, none⟩ = some ⟨"WCAG2AA", false, 0, none, none⟩ ∧
    Tester.filterByCodes ⟨"WCAG2AA", false, 0, none, none⟩ none = true ∧
    Tester.excludeByCodes ⟨"WCAG2AA", false, 0,
        some (.seq .wordBoundary (.seq (literalNode "H37".toList) .wordBoundary)), none⟩
      none = true ∧
    Tester.filterByCodes ⟨"WCAG2AA", false, 0,
        some (.seq .wordBoundary (.seq (literalNode "H37".toList) .wordBoundary)), none⟩
      none = false :=
  ⟨by decide, by decide,
    (default_code_predicates ⟨"WCAG2AA", none, none, none⟩ ⟨"WCAG2AA", false, 0, none, none⟩
      (by decide)).1 rfl none,
    (default_code_predicates ⟨"WCAG2AA", none, some "H37", none⟩
      ⟨"WCAG2AA", false, 0,
        some (.seq .wordBoundary (.seq (literalNode "H37".toList) .wordBoundary)), none⟩
      (by decide)).2.1 rfl none,
    (default_code_predicates ⟨"WCAG2AA", none, some "H37", none⟩
      ⟨"WCAG2AA", false, 0,
        some (.seq .wordBoundary (.seq (literalNode "H37".toList) .wordBoundary)), none⟩
      (by decide)).2.2 (by decide)⟩

/-! ## Theorems: code filter -/

/-- The lower-case mapping of the library on code units. -/
lemma toNat_toLower (c : Char) :
    c.toLower.toNat = if 65 ≤ c.toNat ∧ c.toNat ≤ 90 then c.toNat + 32 else c.toNat := by
  unfold Char.toLower
  simp only [ge_iff_le]
  split
  · rename_i h
    have hv : (c.toNat + 32).isValidChar := by
      left; omega
    unfold Char.ofNat
    rw [dif_pos hv]
    rfl
  · rfl

/-- Two characters have one canonical code unit exactly when they have one lower case. -/
lemma canonicalize_eq_iff (c d : Char) :
    canonicalize d = canonicalize c ↔ d.toLower = c.toLower := by
  constructor
  · intro h
    apply Char.ext
    apply UInt32.ext
    have h1 := toNat_toLower c
    have h2 := toNat_toLower d
    simp only [Char.toNat] at h1 h2
    rw [h1, h2]
    simp only [canonicalize, codeOf, Char.toNat] at h
    split_ifs at h ⊢ <;> omega
  · intro h
    have h3 : d.toLower.toNat = c.toLower.toNat := by rw [h]
    rw [toNat_toLower, toNat_toLower] at h3
    simp only [canonicalize, codeOf]
    split_ifs at h3 ⊢ <;> omega

/-- The class `\w` is the class of letters, digits and the underscore. -/
lemma isWordChar_eq (c : Char) : isWordChar c = isLetterDigitUnderscore c := by
  have hc : c = Char.ofNat c.toNat := (Char.ofNat_toNat c).symm
  by_cases h : isWordChar c = true
  · rw [h]
    have h2 := h
    simp only [isWordChar, codeOf, Bool.or_eq_true, Bool.and_eq_true, decide_eq_true_eq] at h2
    generalize c.toNat = n at hc h2
    subst hc
    symm
    rcases h2 with ((⟨h1, h2⟩ | ⟨h1, h2⟩) | ⟨h1, h2⟩) | h1
    · interval_cases n <;> decide
    · interval_cases n <;> decide
    · interval_cases n <;> decide
    · subst h1; decide
  · simp only [Bool.not_eq_true] at h
    rw [h]
    symm
    by_contra hcon
    simp only [Bool.not_eq_false] at hcon
    simp only [isLetterDigitUnderscore, List.contains_eq_any_beq, List.any_eq_true,
      beq_iff_eq] at hcon
    obtain ⟨x, hx, hxc⟩ := hcon
    subst hxc
    have hall : ∀ x ∈ "ABCDEFGHIJKLMNOPQRSTUVWXYZabcdefghijklmnopqrstuvwxyz0123456789_".toList,
        isWordChar x = true := by decide
    rw [hall c hx] at h
    cases h

/-- A character with the canonical code unit of a word character is a word character. -/
lemma isWordChar_of_canonicalize (c d : Char) (h : canonicalize d = canonicalize c)
    (hc : isWordChar c = true) : isWordChar d = true := by
  simp only [isWordChar, codeOf, Bool.or_eq_true, Bool.and_eq_true, decide_eq_true_eq] at hc ⊢
  simp only [canonicalize, codeOf] at h
  split_ifs at h <;> omega

/-- A word character is neither white space nor a comma, nor a syntax character, and
is below 128. -/
lemma isWordChar_literal (c : Char) (hc : isWordChar c = true) :
    isWhiteSpace c = false ∧ codeOf c ≠ 44 ∧ codeOf c ≠ 124 ∧
      isSyntaxCharacter c = false ∧ ¬ 128 ≤ codeOf c := by
  simp only [isWordChar, Bool.or_eq_true, Bool.and_eq_true, decide_eq_true_eq] at hc
  refine ⟨?_, by omega, by omega, ?_, by omega⟩
  · simp only [isWhiteSpace, Bool.or_eq_false_iff, Bool.and_eq_false_imp, decide_eq_false_iff_not,
      decide_eq_true_eq]
    omega
  · simp only [isSyntaxCharacter, List.contains_eq_any_beq, List.any_eq_false, beq_iff_eq,
      List.mem_cons, List.mem_singleton, List.not_mem_nil, or_false]
    intro x hx
    omega

/-- Word characters are left alone by the replacement of separators. -/
lemma replaceSeparators_word (w : List Char) (hw : ∀ c ∈ w, isWordChar c = true) :
    replaceSeparators w = w := by
  unfold replaceSeparators
  induction w with
  | nil => rfl
  | cons c cs ih =>
    obtain ⟨h1, h2, -⟩ := isWordChar_literal c (hw c (List.mem_cons_self _ _))
    simp only [List.map_cons, h1, h2, Bool.false_or, decide_False, Bool.false_eq_true, if_false]
    rw [ih (fun x hx => hw x (List.mem_cons_of_mem _ hx))]

/-- A run of word characters in front of a body joins the first alternative. -/
lemma parseDisjunction_word (w : List Char) (hw : ∀ c ∈ w, isWordChar c = true)
    (rest a : List Char) (as : List (List Char))
    (h : parseDisjunction rest = some (a :: as)) :
    parseDisjunction (w ++ rest) = some ((w ++ a) :: as) := by
  induction w with
  | nil => simpa using h
  | cons c cs ih =>
    obtain ⟨-, -, h3, h4, h5⟩ := isWordChar_literal c (hw c (List.mem_cons_self _ _))
    have ih2 := ih (fun x hx => hw x (List.mem_cons_of_mem _ hx))
    have ih3 : parseDisjunction (cs.append rest) = some ((cs ++ a) :: as) := ih2
    simp only [List.cons_append, parseDisjunction, h3, if_false, h4, Bool.false_or,
      decide_eq_true_eq, h5, ih3]

/-- The alternatives of the regular expression built from codes separated by single
commas are the codes. -/
lemma parseDisjunction_commaSeparated (codes : List (List Char)) (hne : codes ≠ [])
    (hw : ∀ w ∈ codes, ∀ c ∈ w, isWordChar c = true) :
    parseDisjunction (replaceSeparators (commaSeparated codes)) = some codes := by
  induction codes with
  | nil => exact absurd rfl hne
  | cons w ws ih =>
    cases ws with
    | nil =>
      simp only [commaSeparated]
      rw [replaceSeparators_word w (hw w (List.mem_cons_self _ _))]
      have := parseDisjunction_word w (hw w (List.mem_cons_self _ _)) [] [] [] rfl
      simpa using this
    | cons w2 ws =>
      have ih2 := ih (by simp) (fun x hx => hw x (List.mem_cons_of_mem _ hx))
      simp only [commaSeparated] at ih2 ⊢
      have hsplit : replaceSeparators (w ++ Char.ofNat 44 :: commaSeparated (w2 :: ws)) =
          w ++ Char.ofNat 124 :: replaceSeparators (commaSeparated (w2 :: ws)) := by
        have hc : (isWhiteSpace (Char.ofNat 44) || decide (codeOf (Char.ofNat 44) = 44)) = true := by
          decide
        conv_lhs => unfold replaceSeparators
        rw [List.map_append, List.map_cons, if_pos hc]
        congr 1
        exact replaceSeparators_word w (hw w (List.mem_cons_self _ _))
      rw [hsplit]
      have hbar : parseDisjunction
          (Char.ofNat 124 :: replaceSeparators (commaSeparated (w2 :: ws))) =
          some ([] :: w2 :: ws) := by
        have h124 : codeOf (Char.ofNat 124) = 124 := by decide
        simp only [parseDisjunction, h124, if_true, ih2, Option.map_some']
      have := parseDisjunction_word w (hw w (List.mem_cons_self _ _)) _ [] (w2 :: ws) hbar
      simpa using this

/-- A run of literal characters matches at `i` exactly when the input from `i` on
starts with characters of the same canonical code units; the continuation is then
entered at the end of the run. -/
lemma matchAt_literalNode (w : List Char) (s : List Char) (k : Nat → Bool) :
    ∀ i, (literalNode w).matchAt s i k = true ↔
      (∃ mid post, s.drop i = mid ++ post ∧
        List.Forall₂ (fun d c => canonicalize d = canonicalize c) mid w) ∧
      k (i + w.length) = true := by
  induction w with
  | nil =>
    intro i
    simp only [literalNode, Node.matchAt, List.forall₂_nil_right_iff, List.length_nil,
      Nat.add_zero]
    constructor
    · intro hk
      exact ⟨⟨[], s.drop i, rfl, rfl⟩, hk⟩
    · exact fun h => h.2
  | cons c cs ih =>
    intro i
    simp only [literalNode, Node.matchAt]
    cases hs : s[i]? with
    | none =>
      simp only [Bool.false_eq_true, false_iff, not_and]
      rintro ⟨mid, post, hd, hf⟩
      rw [List.getElem?_eq_none_iff] at hs
      rw [List.drop_eq_nil_of_le hs] at hd
      cases hf with
      | cons _ _ => cases hd
    | some d =>
      obtain ⟨hlt, hget⟩ := List.getElem?_eq_some.mp hs
      have hdrop : s.drop i = d :: s.drop (i + 1) := by
        rw [List.drop_eq_getElem_cons hlt, hget]
      simp only [Bool.and_eq_true, beq_iff_eq, ih (i + 1), List.length_cons]
      have harith : i + 1 + cs.length = i + (cs.length + 1) := by omega
      rw [harith]
      constructor
      · rintro ⟨hcan, ⟨mid, post, hd, hf⟩, hk⟩
        exact ⟨⟨d :: mid, post, by rw [hdrop, hd]; rfl, List.Forall₂.cons hcan hf⟩, hk⟩
      · rintro ⟨⟨mid, post, hd, hf⟩, hk⟩
        cases hf with
        | cons hcan hf2 =>
          rename_i d2 mid2
          rw [hdrop] at hd
          simp only [List.cons_append, List.cons.injEq] at hd
          obtain ⟨hd1, hd2⟩ := hd
          subst hd1
          exact ⟨hcan, ⟨mid2, post, hd2, hf2⟩, hk⟩

/-- A disjunction of literal alternatives matches exactly when one of them does. -/
lemma matchAt_disjunctionNode (as : List (List Char)) (hne : as ≠ []) (s : List Char)
    (i : Nat) (k : Nat → Bool) :
    (disjunctionNode as).matchAt s i k = true ↔
      ∃ a ∈ as, (literalNode a).matchAt s i k = true := by
  induction as with
  | nil => exact absurd rfl hne
  | cons a rest ih =>
    cases rest with
    | nil => simp [disjunctionNode]
    | cons b rest =>
      have ih2 := ih (by simp)
      simp only [disjunctionNode, Node.matchAt, Bool.or_eq_true, ih2]
      simp only [List.mem_cons, exists_eq_or_imp]

/-- The word boundary at the junction of two parts of the input. -/
lemma isWordBoundary_append (pre rest : List Char) :
    isWordBoundary (pre ++ rest) pre.length =
      (pre.getLast?.any isWordChar != rest.head?.any isWordChar) := by
  have hb : (pre ++ rest)[pre.length]? = rest.head? := by
    rw [List.getElem?_append_right (le_refl _), Nat.sub_self, List.head?_eq_getElem?]
  rcases List.eq_nil_or_concat pre with h | ⟨p, x, h⟩
  · subst h
    simp only [isWordBoundary, List.nil_append, List.length_nil, List.getLast?_nil,
      List.head?_eq_getElem?]
    cases rest[0]? <;> rfl
  · rw [List.concat_eq_append] at h
    subst h
    have ha : (p ++ [x] ++ rest)[p.length]? = some x := by
      rw [List.append_assoc, List.getElem?_append_right (le_refl _), Nat.sub_self]
      simp
    have hlen : (p ++ [x]).length = p.length + 1 := by simp
    rw [hlen] at hb ⊢
    simp only [isWordBoundary, ha, hb, List.getLast?_concat]
    cases rest.head? <;> rfl

/-- The regular expression of a code filter accepts an input exactly when some
alternative matches between two word boundaries. -/
lemma test_codes (as : List (List Char)) (hne : as ≠ []) (s : String) :
    (Node.seq .wordBoundary (.seq (disjunctionNode as) .wordBoundary)).test s = true ↔
      ∃ i, i ≤ s.toList.length ∧ isWordBoundary s.toList i = true ∧
        ∃ a ∈ as, (∃ mid post, s.toList.drop i = mid ++ post ∧
            List.Forall₂ (fun d c => canonicalize d = canonicalize c) mid a) ∧
          isWordBoundary s.toList (i + a.length) = true := by
  simp only [Node.test, List.any_eq_true, List.mem_range, Node.matchAt, Bool.and_eq_true,
    matchAt_disjunctionNode as hne, matchAt_literalNode, Bool.and_true]
  constructor
  · rintro ⟨i, hi, hb, a, ha, hm⟩
    exact ⟨i, by omega, hb, a, ha, hm⟩
  · rintro ⟨i, hi, hb, a, ha, hm⟩
    exact ⟨i, by omega, hb, a, ha, hm⟩

/-- Equal canonical code units along two strings, as equality of their lower cases. -/
lemma forall₂_canonicalize_iff (mid : List Char) :
    ∀ a : List Char, List.Forall₂ (fun d c => canonicalize d = canonicalize c) mid a ↔
      mid.map Char.toLower = a.map Char.toLower := by
  induction mid with
  | nil =>
    intro a
    cases a <;> simp
  | cons d ds ih =>
    intro a
    cases a with
    | nil => simp
    | cons c cs =>
      rw [List.forall₂_cons, ih cs, canonicalize_eq_iff]
      simp only [List.map_cons, List.cons.injEq]

/-- A string that equals a string of word characters up to case is made of word
characters. -/
lemma forall₂_isWordChar (mid a : List Char)
    (h : List.Forall₂ (fun d c => canonicalize d = canonicalize c) mid a)
    (ha : ∀ c ∈ a, isWordChar c = true) : ∀ d ∈ mid, isWordChar d = true := by
  induction h with
  | nil => intro d hd; cases hd
  | cons hcan _ ih =>
    intro x hx
    rcases List.mem_cons.mp hx with hx | hx
    · subst hx
      exact isWordChar_of_canonicalize _ x hcan (ha _ (List.mem_cons_self _ _))
    · exact ih (fun y hy => ha y (List.mem_cons_of_mem _ hy)) x hx

/-- The first character of a non-empty string of word characters is one. -/
lemma head?_any_isWordChar (mid : List Char) (hne : mid ≠ [])
    (h : ∀ d ∈ mid, isWordChar d = true) (post : List Char) :
    (mid ++ post).head?.any isWordChar = true := by
  cases mid with
  | nil => exact absurd rfl hne
  | cons d ds => simpa using h d (List.mem_cons_self _ _)

/-- The last character of a non-empty string of word characters is one. -/
lemma getLast?_any_isWordChar (mid : List Char) (hne : mid ≠ [])
    (h : ∀ d ∈ mid, isWordChar d = true) (pre : List Char) :
    (pre ++ mid).getLast?.any isWordChar = true := by
  rcases List.eq_nil_or_concat mid with h0 | ⟨p, x, h0⟩
  · exact absurd h0 hne
  · rw [List.concat_eq_append] at h0
    subst h0
    rw [← List.append_assoc, List.getLast?_concat]
    simpa using h x (by simp)

/-- An optional character that is not a word character, in the words of the
specification. -/
lemma any_isWordChar_eq_false (o : Option Char) :
    o.any isWordChar = false ↔ ∀ c, o = some c → isLetterDigitUnderscore c = false := by
  cases o with
  | none => simp
  | some x => simp [isWordChar_eq]

/-- A match of a code between two word boundaries is an occurrence of the code as a
whole word. -/
lemma wholeWord_iff (a : List Char) (hne : a ≠ []) (ha : ∀ c ∈ a, isWordChar c = true)
    (s : List Char) :
    (∃ i, i ≤ s.length ∧ isWordBoundary s i = true ∧
        (∃ mid post, s.drop i = mid ++ post ∧
          List.Forall₂ (fun d c => canonicalize d = canonicalize c) mid a) ∧
        isWordBoundary s (i + a.length) = true) ↔ OccursAsWholeWord a s := by
  constructor
  · rintro ⟨i, hi, hb1, ⟨mid, post, hd, hf⟩, hb2⟩
    have hs : s = s.take i ++ mid ++ post := by
      rw [List.append_assoc, ← hd, List.take_append_drop]
    have hl1 : (s.take i).length = i := by
      rw [List.length_take]; omega
    have hmid : ∀ d ∈ mid, isWordChar d = true := forall₂_isWordChar mid a hf ha
    have hmne : mid ≠ [] := by
      intro h0
      subst h0
      cases hf
      exact hne rfl
    refine ⟨s.take i, mid, post, hs, (forall₂_canonicalize_iff mid a).mp hf, ?_, ?_⟩
    · rw [← any_isWordChar_eq_false]
      have hb := isWordBoundary_append (s.take i) (mid ++ post)
      rw [← List.append_assoc, ← hs, hl1, hb1, head?_any_isWordChar mid hmne hmid] at hb
      cases h : Option.any isWordChar (s.take i).getLast? with
      | false => rfl
      | true => rw [h] at hb; cases hb
    · rw [← any_isWordChar_eq_false]
      have hb := isWordBoundary_append (s.take i ++ mid) post
      have hl2 : (s.take i ++ mid).length = i + a.length := by
        rw [List.length_append, hl1, hf.length_eq]
      rw [← hs, hl2, hb2, getLast?_any_isWordChar mid hmne hmid] at hb
      cases h : Option.any isWordChar post.head? with
      | false => rfl
      | true => rw [h] at hb; cases hb
  · rintro ⟨pre, mid, post, hs, hm, h1, h2⟩
    have hf := (forall₂_canonicalize_iff mid a).mpr hm
    have hmid : ∀ d ∈ mid, isWordChar d = true := forall₂_isWordChar mid a hf ha
    have hmne : mid ≠ [] := by
      intro h0
      subst h0
      cases hf
      exact hne rfl
    refine ⟨pre.length, by rw [hs]; simp, ?_, ⟨mid, post, ?_, hf⟩, ?_⟩
    · have hb := isWordBoundary_append pre (mid ++ post)
      rw [← List.append_assoc, ← hs, head?_any_isWordChar mid hmne hmid,
        (any_isWordChar_eq_false _).mpr h1] at hb
      exact hb
    · rw [hs, List.append_assoc, List.drop_left]
    · have hb := isWordBoundary_append (pre ++ mid) post
      rw [← hs, getLast?_any_isWordChar mid hmne hmid,
        (any_isWordChar_eq_false _).mpr h2, List.length_append, hf.length_eq] at hb
      exact hb

/-- The include predicate of a pattern of codes separated by single commas, on a
non-empty code. -/
lemma filterByCodes_commaSeparated (codes : List (List Char)) (pattern : String)
    (hne : codes ≠ [])
    (hcodes : ∀ w ∈ codes, w ≠ [] ∧ ∀ c ∈ w, isWordChar c = true)
    (hpat : pattern.toList = commaSeparated codes) :
    codesRegex pattern =
        some (.seq .wordBoundary (.seq (disjunctionNode codes) .wordBoundary)) ∧
    ∀ code : String,
      ((Node.seq .wordBoundary (.seq (disjunctionNode codes) .wordBoundary)).test code = true ↔
        ∃ w ∈ codes, OccursAsWholeWord w code.toList) := by
  constructor
  · unfold codesRegex
    rw [hpat, parseDisjunction_commaSeparated codes hne (fun w hw => (hcodes w hw).2)]
    rfl
  · intro code
    rw [test_codes codes hne]
    constructor
    · rintro ⟨i, hi, hb1, a, ha, hm, hb2⟩
      exact ⟨a, ha, (wholeWord_iff a (hcodes a ha).1 (hcodes a ha).2 _).mp ⟨i, hi, hb1, hm, hb2⟩⟩
    · rintro ⟨a, ha, ho⟩
      obtain ⟨i, hi, hb1, hm, hb2⟩ :=
        (wholeWord_iff a (hcodes a ha).1 (hcodes a ha).2 _).mpr ho
      exact ⟨i, hi, hb1, a, ha, hm, hb2⟩

/-- C8: for an include pattern made of non-empty codes of letters, digits and
underscores separated by single commas, the regular expression is built, and the
include predicate accepts a non-empty code exactly when one of the listed codes
occurs in it case-insensitively as a whole word, neither preceded nor followed by a
letter, a digit or an underscore. The pattern `1_1,1_2` accepts `WCAG2AA.1_1.title`
and rejects `WCAG2AA.1_12.title` and `WCAG2AA.1_2_extra`. -/
theorem filterByCodes_whole_word (codes : List String) (pattern : String)
    (hne : codes ≠ [])
    (hcodes : ∀ w ∈ codes, w.toList ≠ [] ∧ ∀ c ∈ w.toList, isLetterDigitUnderscore c = true)
    (hpat : pattern.toList = commaSeparated (codes.map String.toList)) :
    (∃ r, codesRegex pattern = some r) ∧
    (∀ p t, tester p = some t → p.filterByCodes = some pattern →
      ∀ code : String, code.toList ≠ [] →
        (t.filterByCodes (some code) = true ↔
          ∃ w ∈ codes, OccursAsWholeWord w.toList code.toList)) ∧
    (tester ⟨"WCAG2AA", none, some "1_1,1_2", none⟩).map
        (fun t => (t.filterByCodes (some "WCAG2AA.1_1.title"),
                   t.filterByCodes (some "WCAG2AA.1_12.title"),
                   t.filterByCodes (some "WCAG2AA.1_2_extra"))) =
      some (true, false, false) := by
  have hne2 : codes.map String.toList ≠ [] := by
    intro h
    exact hne (List.map_eq_nil_iff.mp h)
  have hcodes2 : ∀ w ∈ codes.map String.toList, w ≠ [] ∧ ∀ c ∈ w, isWordChar c = true := by
    intro w hw
    obtain ⟨x, hx, rfl⟩ := List.mem_map.mp hw
    refine ⟨(hcodes x hx).1, fun c hc => ?_⟩
    rw [isWordChar_eq]
    exact (hcodes x hx).2 c hc
  obtain ⟨hr, htest⟩ := filterByCodes_commaSeparated _ pattern hne2 hcodes2 hpat
  refine ⟨⟨_, hr⟩, ?_, by decide⟩
  intro p t ht hp code hcode
  obtain ⟨hf, -⟩ := tester_fields p t ht
  rw [hp] at hf
  simp only [optionalRegex, hr, Option.map_some', Option.some.injEq] at hf
  have htruthy : truthy (some code) = true := by
    show (!code.toList.isEmpty) = true
    cases h : code.toList with
    | nil => exact absurd h hcode
    | cons _ _ => rfl
  simp only [Tester.filterByCodes, ← hf, htruthy, Bool.true_and, htest code]
  constructor
  · rintro ⟨w, hw, ho⟩
    obtain ⟨x, hx, rfl⟩ := List.mem_map.mp hw
    exact ⟨x, hx, ho⟩
  · rintro ⟨x, hx, ho⟩
    exact ⟨x.toList, List.mem_map_of_mem _ hx, ho⟩

/-- Witness of `filterByCodes_whole_word`: with the include pattern `1_1,1_2` the
code `WCAG2AA.1_1.title` is accepted, so one of the two codes occurs in it as a whole
word. -/
theorem filterByCodes_whole_word_witness :
    ∃ w ∈ ["1_1", "1_2"], OccursAsWholeWord w.toList "WCAG2AA.1_1.title".toList :=
  ((filterByCodes_whole_word ["1_1", "1_2"] "1_1,1_2" (by decide) (by decide) (by decide)).2.1
    ⟨"WCAG2AA", none, some "1_1,1_2", none⟩
    ⟨"WCAG2AA", false, 0,
      some (.seq .wordBoundary
        (.seq (disjunctionNode ["1_1".toList, "1_2".toList]) .wordBoundary)), none⟩
    (by decide) rfl "WCAG2AA.1_1.title" (by decide)).mp (by decide)

/-- C9 (what the code does): with the include pattern `1_1, 1_2`, a comma followed by
a space, the separators leave an empty alternative between the two codes, and the
include predicate accepts the code `WCAG2AA.9_9.title` although neither `1_1` nor
`1_2` occurs in it as a whole word; the same holds for the pattern `1_1,` with a
trailing separator, and the exclude predicate of the pattern `1_1, 1_2` rejects that
code. -/
theorem filterByCodes_empty_alternative :
    parseDisjunction (replaceSeparators "1_1, 1_2".toList) =
      some ["1_1".toList, [], "1_2".toList] ∧
    (tester ⟨"WCAG2AA", none, some "1_1, 1_2", none⟩).map
        (fun t => t.filterByCodes (some "WCAG2AA.9_9.title")) = some true ∧
    (tester ⟨"WCAG2AA", none, some "1_1,", none⟩).map
        (fun t => t.filterByCodes (some "WCAG2AA.9_9.title")) = some true ∧
    (tester ⟨"WCAG2AA", none, none, some "1_1, 1_2"⟩).map
        (fun t => t.excludeByCodes (some "WCAG2AA.9_9.title")) = some false ∧
    ¬ (∃ w ∈ ["1_1", "1_2"], OccursAsWholeWord w.toList "WCAG2AA.9_9.title".toList) := by
  refine ⟨by decide, by decide, by decide, by decide, ?_⟩
  intro h
  have key := (filterByCodes_commaSeparated ["1_1".toList, "1_2".toList] "1_1,1_2"
    (by decide) (by decide) (by decide)).2 "WCAG2AA.9_9.title"
  have hfalse : (Node.seq .wordBoundary
      (.seq (disjunctionNode ["1_1".toList, "1_2".toList]) .wordBoundary)).test
      "WCAG2AA.9_9.title" = false := by decide
  rw [hfalse] at key
  obtain ⟨w, hw, ho⟩ := h
  have : ∃ w ∈ ["1_1".toList, "1_2".toList], OccursAsWholeWord w "WCAG2AA.9_9.title".toList :=
    ⟨w.toList, by
      simp only [List.mem_cons, List.mem_singleton, List.not_mem_nil, or_false] at hw ⊢
      rcases hw with rfl | rfl
      · left; rfl
      · right; rfl, ho⟩
  exact absurd (key.mpr this) (by decide)

/-! ## Theorems: markup adapter -/

/-- C11: with markup validation switched on, the markup adapter hands over exactly the
normalised messages, in their order, whose level passes `filterByErrorLevels`; the
result is the same whatever the include and exclude regular expressions are, so a
message whose level passes is never dropped because of a code filter. -/
theorem testHTML_severity_only (t : Tester) (msgs : List VnuMessage)
    (h : t.htmlStandard = true) :
    t.testHTML msgs =
      (msgs.map htmlFinding).filter
        (fun f => filterByErrorLevels t.minimumErrorLevel (some f.level)) ∧
    List.Sublist (t.testHTML msgs) (msgs.map htmlFinding) ∧
    (∀ f e : Option Node,
      Tester.testHTML { t with filterByCodesRegex := f, excludeByCodesRegex := e } msgs =
        t.testHTML msgs) ∧
    (∀ m ∈ msgs, filterByErrorLevels t.minimumErrorLevel (some (htmlFinding m).level) = true →
      htmlFinding m ∈ t.testHTML msgs) := by
  have h1 : t.testHTML msgs =
      (msgs.map htmlFinding).filter
        (fun f => filterByErrorLevels t.minimumErrorLevel (some f.level)) := by
    simp [Tester.testHTML, h]
  refine ⟨h1, ?_, ?_, ?_⟩
  · rw [h1]
    exact List.filter_sublist _
  · intro f e
    rfl
  · intro m hm hp
    rw [h1]
    exact List.mem_filter.mpr ⟨List.mem_map_of_mem _ hm, hp⟩

/-- Witness of `testHTML_severity_only`: with the include pattern `H37` active, a
validator error is handed over although the include predicate rejects its code. -/
theorem testHTML_severity_only_witness :
    Tester.filterByCodes
        ⟨"WCAG2AA", true, 3,
          some (.seq .wordBoundary (.seq (literalNode "H37".toList) .wordBoundary)), none⟩
        (htmlFinding ⟨"error", some " <p> ", "Stray end tag."⟩).code = false ∧
    htmlFinding ⟨"error", some " <p> ", "Stray end tag."⟩ ∈
      Tester.testHTML
        ⟨"WCAG2AA", true, 3,
          some (.seq .wordBoundary (.seq (literalNode "H37".toList) .wordBoundary)), none⟩
        [⟨"error", some " <p> ", "Stray end tag."⟩] :=
  ⟨by decide,
    (testHTML_severity_only
      ⟨"WCAG2AA", true, 3,
        some (.seq .wordBoundary (.seq (literalNode "H37".toList) .wordBoundary)), none⟩
      [⟨"error", some " <p> ", "Stray end tag."⟩] rfl).2.2.2
      ⟨"error", some " <p> ", "Stray end tag."⟩ (by decide) (by decide)⟩

/-- C13 (as stated, refuted): the origin tag of a finding of the accessibility adapter
is not among `accessibility` and `markup`, and neither is the tag of a finding of the
markup adapter. -/
theorem finding_type_not_accessibility_markup :
    (a11yFinding ⟨"error", some "WCAG2AA.1_1", "<img>", some "html > img", "m"⟩).type ∉
        ["accessibility", "markup"] ∧
    (htmlFinding ⟨"error", some "<p>", "m"⟩).type ∉ ["accessibility", "markup"] := by
  decide

/-- C13 (amended): every finding carries an origin tag that is `a11y` or `html`: a
finding built by the accessibility adapter has the tag `a11y`, a finding built by the
markup adapter has the tag `html`, and so have all the findings each adapter hands
over. -/
theorem finding_type_a11y_html (t : Tester) (results : List RawResult)
    (msgs : List VnuMessage) :
    (∀ r : RawResult, (a11yFinding r).type = "a11y") ∧
    (∀ m : VnuMessage, (htmlFinding m).type = "html") ∧
    (t.a11yResults results).all (fun f => f.type == "a11y") = true ∧
    (t.testHTML msgs).all (fun f => f.type == "html") = true := by
  refine ⟨fun _ => rfl, fun _ => rfl, ?_, ?_⟩
  · rw [List.all_eq_true]
    intro f hf
    obtain ⟨r, _, rfl⟩ := List.mem_map.mp (List.mem_filter.mp hf).1
    rfl
  · rw [List.all_eq_true]
    intro f hf
    unfold Tester.testHTML at hf
    split at hf
    · cases hf
    · obtain ⟨m, _, rfl⟩ := List.mem_map.mp (List.mem_filter.mp hf).1
      rfl

/-- A type without the substring `info` is left alone by `replace('info', 'notice')`. -/
lemma replaceInfo_of_not_infix (l : List Char) (h : ¬ "info".toList <:+: l) :
    replaceInfo l = l := by
  induction l with
  | nil => rfl
  | cons c cs ih =>
    have hp : "info".toList.isPrefixOf (c :: cs) = false := by
      cases hb : "info".toList.isPrefixOf (c :: cs) with
      | false => rfl
      | true => exact absurd (List.isPrefixOf_iff_prefix.mp hb).isInfix h
    rw [replaceInfo, hp]
    simp only [Bool.false_eq_true, if_false, List.cons.injEq, true_and]
    exact ih (fun hi => h (List.infix_cons hi))

/-- The first occurrence of `info` is the one replaced. -/
lemma replaceInfo_first (pre post : List Char)
    (h : ¬ "info".toList <:+: pre ++ "inf".toList) :
    replaceInfo (pre ++ "info".toList ++ post) = pre ++ "notice".toList ++ post := by
  induction pre with
  | nil =>
    have hp : "info".toList.isPrefixOf ("info".toList ++ post) = true :=
      List.isPrefixOf_iff_prefix.mpr ⟨post, rfl⟩
    have hcons : [] ++ "info".toList ++ post =
        Char.ofNat 105 :: ("nfo".toList ++ post) := rfl
    have hp2 : "info".toList.isPrefixOf (Char.ofNat 105 :: ("nfo".toList ++ post)) = true := hp
    rw [hcons, replaceInfo, hp2]
    rfl
  | cons c cs ih =>
    have hp : "info".toList.isPrefixOf (c :: cs ++ "info".toList ++ post) = false := by
      cases hb : "info".toList.isPrefixOf (c :: cs ++ "info".toList ++ post) with
      | false => rfl
      | true =>
        exfalso
        apply h
        apply List.IsPrefix.isInfix
        have h1 : "info".toList <+: c :: cs ++ "info".toList ++ post :=
          List.isPrefixOf_iff_prefix.mp hb
        have h2 : c :: cs ++ "inf".toList <+: c :: cs ++ "info".toList ++ post :=
          ⟨"o".toList ++ post, by simp⟩
        exact List.prefix_of_prefix_length_le h1 h2 (by simp)
    have hcons : c :: cs ++ "info".toList ++ post = c :: (cs ++ "info".toList ++ post) := rfl
    rw [hcons, replaceInfo, ← hcons, hp]
    simp only [Bool.false_eq_true, if_false]
    rw [ih (fun hi => h (List.infix_cons hi))]
    rfl

/-- The method `trim()` cuts white space off both ends and nothing else. -/
lemma trim_spec (s : List Char) :
    ∃ l r, s = l ++ trim s ++ r ∧ (∀ c ∈ l, isWhiteSpace c = true) ∧
      (∀ c ∈ r, isWhiteSpace c = true) ∧
      (∀ c, (trim s).head? = some c → isWhiteSpace c = false) ∧
      (∀ c, (trim s).getLast? = some c → isWhiteSpace c = false) := by
  have hd : s.dropWhile isWhiteSpace =
      trim s ++ ((s.dropWhile isWhiteSpace).reverse.takeWhile isWhiteSpace).reverse := by
    have := List.takeWhile_append_dropWhile isWhiteSpace (s.dropWhile isWhiteSpace).reverse
    have h2 := congrArg List.reverse this
    rw [List.reverse_append, List.reverse_reverse] at h2
    exact h2.symm
  have hlast : ∀ c, (trim s).getLast? = some c → isWhiteSpace c = false := by
    intro c hc
    unfold trim at hc
    rw [List.getLast?_reverse] at hc
    have := List.head?_dropWhile_not isWhiteSpace (s.dropWhile isWhiteSpace).reverse
    rw [hc] at this
    exact this
  refine ⟨s.takeWhile isWhiteSpace,
    ((s.dropWhile isWhiteSpace).reverse.takeWhile isWhiteSpace).reverse, ?_, ?_, ?_, ?_, hlast⟩
  · rw [List.append_assoc, ← hd, List.takeWhile_append_dropWhile]
  · intro c hc
    exact List.mem_takeWhile_imp hc
  · intro c hc
    exact List.mem_takeWhile_imp (List.mem_reverse.mp hc)
  · intro c hc
    cases ht : trim s with
    | nil => rw [ht] at hc; cases hc
    | cons x xs =>
      rw [ht] at hc hd
      simp only [List.head?_cons, Option.some.injEq] at hc
      subst hc
      have := List.head?_dropWhile_not isWhiteSpace s
      rw [hd] at this
      exact this

/-- The context of a markup finding is the extract trimmed; a missing or empty
extract gives the empty string. -/
lemma htmlFinding_context (m : VnuMessage) :
    (htmlFinding m).context.toList = trim (m.extract.getD "").toList := by
  show trim (if truthy m.extract then m.extract.getD "" else "").toList = _
  cases he : m.extract with
  | none => rfl
  | some e =>
    by_cases ht : truthy (some e) = true
    · rw [if_pos ht]
    · rw [if_neg ht]
      have hnil : e.toList = [] := by
        cases h : e.toList with
        | nil => rfl
        | cons x xs =>
          exfalso
          apply ht
          show (!e.toList.isEmpty) = true
          rw [h]
          rfl
      show trim "".toList = trim e.toList
      rw [hnil]
      rfl

/-- C12: the markup adapter turns a validator message into a finding whose code and
selector are `null`, whose message is the message text, whose level is the message
type with the first `info` replaced by `notice` (so `info` gives `notice`, and a type
without `info`, such as `error` or `warning`, is unchanged), and whose context is the
extract without the white space around it, or the empty string without an extract. -/
theorem htmlFinding_spec (m : VnuMessage) :
    (htmlFinding m).code = none ∧
    (htmlFinding m).selector = none ∧
    (htmlFinding m).message = m.message ∧
    (m.type = "info" → (htmlFinding m).level = "notice") ∧
    (m.type = "error" → (htmlFinding m).level = "error") ∧
    (m.type = "warning" → (htmlFinding m).level = "warning") ∧
    (¬ "info".toList <:+: m.type.toList → (htmlFinding m).level = m.type) ∧
    (∀ pre post, m.type.toList = pre ++ "info".toList ++ post →
      ¬ "info".toList <:+: pre ++ "inf".toList →
      (htmlFinding m).level.toList = pre ++ "notice".toList ++ post) ∧
    (m.extract = none → (htmlFinding m).context = "") ∧
    (∀ e, m.extract = some e →
      ∃ l r, e.toList = l ++ (htmlFinding m).context.toList ++ r ∧
        (∀ c ∈ l, isWhiteSpace c = true) ∧ (∀ c ∈ r, isWhiteSpace c = true) ∧
        (∀ c, (htmlFinding m).context.toList.head? = some c → isWhiteSpace c = false) ∧
        (∀ c, (htmlFinding m).context.toList.getLast? = some c → isWhiteSpace c = false)) := by
  have hlevel : (htmlFinding m).level = String.mk (replaceInfo m.type.toList) := rfl
  refine ⟨rfl, rfl, rfl, ?_, ?_, ?_, ?_, ?_, ?_, ?_⟩
  · intro h
    rw [hlevel, h]
    decide
  · intro h
    rw [hlevel, h]
    decide
  · intro h
    rw [hlevel, h]
    decide
  · intro h
    rw [hlevel, replaceInfo_of_not_infix _ h]
    rfl
  · intro pre post h1 h2
    rw [hlevel, h1, replaceInfo_first pre post h2]
    rfl
  · intro h
    have hc := htmlFinding_context m
    rw [h] at hc
    exact String.ext hc
  · intro e he
    have hc := htmlFinding_context m
    rw [he] at hc
    rw [hc]
    exact trim_spec e.toList

/-- Witness of `htmlFinding_spec`: the message of type `info` with the extract
`  <a> ` gives the level `notice` and the context `<a>`. -/
theorem htmlFinding_spec_witness :
    (htmlFinding ⟨"info", some "  <a> ", "Element a."⟩).level = "notice" ∧
    (htmlFinding ⟨"error", none, "Stray end tag."⟩).level = "error" ∧
    (htmlFinding ⟨"warning", none, "Obsolete."⟩).level = "warning" ∧
    (htmlFinding ⟨"non-document-error", none, "IO"⟩).level = "non-document-error" ∧
    (htmlFinding ⟨"xinfoinfo", none, "m"⟩).level.toList = "x".toList ++ "notice".toList ++ "info".toList ∧
    (htmlFinding ⟨"error", none, "Stray end tag."⟩).context = "" ∧
    (htmlFinding ⟨"info", some "  <a> ", "Element a."⟩).context = "<a>" :=
  ⟨(htmlFinding_spec ⟨"info", some "  <a> ", "Element a."⟩).2.2.2.1 rfl,
    (htmlFinding_spec ⟨"error", none, "Stray end tag."⟩).2.2.2.2.1 rfl,
    (htmlFinding_spec ⟨"warning", none, "Obsolete."⟩).2.2.2.2.2.1 rfl,
    (htmlFinding_spec ⟨"non-document-error", none, "IO"⟩).2.2.2.2.2.2.1 (by decide),
    (htmlFinding_spec ⟨"xinfoinfo", none, "m"⟩).2.2.2.2.2.2.2.1 "x".toList "info".toList
      rfl (by decide),
    (htmlFinding_spec ⟨"error", none, "Stray end tag."⟩).2.2.2.2.2.2.2.2.1 rfl,
    by decide⟩

/-! ## Theorems: standards -/

/-- The method `split(',')` never gives an empty array. -/
lemma splitComma_ne_nil (l : List Char) : splitComma l ≠ [] := by
  cases l with
  | nil => simp [splitComma]
  | cons c cs =>
    unfold splitComma
    split
    · simp
    · split <;> simp

/-- Joining the parts of `split(',')` with commas gives the string back, and no part
holds a comma. -/
lemma commaSeparated_splitComma (l : List Char) :
    commaSeparated (splitComma l) = l ∧
      ∀ tok ∈ splitComma l, ∀ c ∈ tok, codeOf c ≠ 44 := by
  induction l with
  | nil =>
    refine ⟨rfl, ?_⟩
    intro tok ht c hc
    simp only [splitComma, List.mem_singleton] at ht
    subst ht
    cases hc
  | cons c cs ih =>
    obtain ⟨ih1, ih2⟩ := ih
    by_cases hc : codeOf c = 44
    · have hsplit : splitComma (c :: cs) = [] :: splitComma cs := by
        rw [splitComma, if_pos hc]
      have hch : c = Char.ofNat 44 := by
        rw [← Char.ofNat_toNat c]
        exact congrArg Char.ofNat hc
      rw [hsplit]
      constructor
      · cases hs : splitComma cs with
        | nil => exact absurd hs (splitComma_ne_nil cs)
        | cons a as =>
          rw [hs] at ih1
          simp only [commaSeparated, List.nil_append, ih1, hch]
      · intro tok ht
        rcases List.mem_cons.mp ht with h | h
        · subst h
          intro x hx
          cases hx
        · exact ih2 tok h
    · cases hs : splitComma cs with
      | nil => exact absurd hs (splitComma_ne_nil cs)
      | cons a as =>
        have hsplit : splitComma (c :: cs) = (c :: a) :: as := by
          rw [splitComma, if_neg hc, hs]
        rw [hs] at ih1 ih2
        rw [hsplit]
        constructor
        · cases as with
          | nil =>
            simp only [commaSeparated] at ih1 ⊢
            rw [ih1]
          | cons a2 as2 =>
            simp only [commaSeparated, List.cons_append] at ih1 ⊢
            rw [ih1]
        · intro tok ht
          rcases List.mem_cons.mp ht with h | h
          · subst h
            intro x hx
            rcases List.mem_cons.mp hx with h2 | h2
            · subst h2
              exact hc
            · exact ih2 a (List.mem_cons_self _ _) x h2
          · exact ih2 tok (List.mem_cons_of_mem _ h)

/-- A part without a comma in front of a string joins the first part of its split. -/
lemma splitComma_append (w : List Char) (hw : ∀ c ∈ w, codeOf c ≠ 44) (rest a : List Char)
    (as : List (List Char)) (h : splitComma rest = a :: as) :
    splitComma (w ++ rest) = (w ++ a) :: as := by
  induction w with
  | nil => simpa using h
  | cons c cs ih =>
    have ih2 := ih (fun x hx => hw x (List.mem_cons_of_mem _ hx))
    have hcons : c :: cs ++ rest = c :: (cs ++ rest) := rfl
    rw [hcons, splitComma, if_neg (hw c (List.mem_cons_self _ _)), ih2]
    rfl

/-- The method `split(',')` gives back the tokens of a comma-separated string. -/
lemma splitComma_commaSeparated (tokens : List (List Char)) (hne : tokens ≠ [])
    (hw : ∀ tok ∈ tokens, ∀ c ∈ tok, codeOf c ≠ 44) :
    splitComma (commaSeparated tokens) = tokens := by
  induction tokens with
  | nil => exact absurd rfl hne
  | cons w ws ih =>
    cases ws with
    | nil =>
      have := splitComma_append w (hw w (List.mem_cons_self _ _)) [] [] [] rfl
      simpa [commaSeparated] using this
    | cons w2 ws =>
      have ih2 := ih (by simp) (fun x hx => hw x (List.mem_cons_of_mem _ hx))
      have hcomma : splitComma (Char.ofNat 44 :: commaSeparated (w2 :: ws)) =
          [] :: w2 :: ws := by
        have h44 : codeOf (Char.ofNat 44) = 44 := by decide
        rw [splitComma, if_pos h44, ih2]
      have := splitComma_append w (hw w (List.mem_cons_self _ _)) _ [] (w2 :: ws) hcomma
      simpa [commaSeparated] using this

/-- The index of a token is found exactly when the token is in the array. -/
lemma indexOf?_eq_none_iff (x : List Char) (parts : List (List Char)) :
    parts.indexOf? x = none ↔ x ∉ parts := by
  unfold List.indexOf?
  rw [List.findIdx?_eq_none_iff]
  constructor
  · intro h hx
    have := h x hx
    simp at this
  · intro h y hy
    simp only [beq_eq_false_iff_ne, ne_eq]
    intro hxy
    exact h (hxy ▸ hy)

/-- The flag `htmlStandard` is set exactly when `HTML` is one of the parts of the
split standards. -/
lemma parseStandards_snd (standards : String) :
    (parseStandards standards).2 = true ↔ "HTML".toList ∈ splitComma standards.toList := by
  have hdef : parseStandards standards =
      match (splitComma standards.toList).indexOf? "HTML".toList with
      | some i => (String.mk (spliceOne i (splitComma standards.toList)).flatten, true)
      | none => (String.mk (splitComma standards.toList).flatten, false) := rfl
  rw [hdef]
  cases h : (splitComma standards.toList).indexOf? "HTML".toList with
  | none =>
    have := (indexOf?_eq_none_iff _ _).mp h
    simp only [Bool.false_eq_true, false_iff]
    exact this
  | some i =>
    have : "HTML".toList ∈ splitComma standards.toList := by
      by_contra hn
      rw [(indexOf?_eq_none_iff _ _).mpr hn] at h
      cases h
    simp only [true_iff]
    exact this

/-- Two completions on the success channel, in both orders. -/
lemma Tester.run_success_pair (t : Tester) (url : String) (ra : List RawResult)
    (msgs : List VnuMessage) :
    t.run url [.a11y none ra, .html msgs] =
      [.logResults (t.a11yResults (t.testA11y none ra).2 ++ t.testHTML msgs) url,
       .onSuccess (t.a11yResults (t.testA11y none ra).2 ++ t.testHTML msgs)] ∧
    t.run url [.html msgs, .a11y none ra] =
      [.logResults (t.testHTML msgs ++ t.a11yResults (t.testA11y none ra).2) url,
       .onSuccess (t.testHTML msgs ++ t.a11yResults (t.testA11y none ra).2)] := by
  have hA : (t.testA11y none ra).1 = none := by
    unfold Tester.testA11y
    split <;> rfl
  rcases h : t.testA11y none ra with ⟨x, rs⟩
  rw [h] at hA
  simp only at hA
  subst hA
  constructor <;>
    simp [Tester.run, Tester.runFrom, Tester.step, Episode.init, lateAccumulator,
      LateAccumulator.call, h]

/-- C14: markup validation is switched on exactly when `HTML` is one of the
comma-separated tokens of the standards string; when it is not, the markup adapter
completes on the success channel with the empty list whatever the validator would
report, and the merged success result is the list of the accessibility adapter. -/
theorem htmlStandard_iff_token (p : Program) (t : Tester) (h : tester p = some t) :
    (t.htmlStandard = true ↔
      ∃ tokens : List (List Char), p.standards.toList = commaSeparated tokens ∧
        (∀ tok ∈ tokens, ∀ c ∈ tok, codeOf c ≠ 44) ∧ "HTML".toList ∈ tokens) ∧
    (t.htmlStandard = false → ∀ (url : String) (ra : List RawResult) (msgs : List VnuMessage),
      t.testHTML msgs = [] ∧
      t.run url [.html msgs, .a11y none ra] =
        [.logResults (t.a11yResults (t.testA11y none ra).2) url,
         .onSuccess (t.a11yResults (t.testA11y none ra).2)] ∧
      t.run url [.a11y none ra, .html msgs] =
        [.logResults (t.a11yResults (t.testA11y none ra).2) url,
         .onSuccess (t.a11yResults (t.testA11y none ra).2)]) := by
  obtain ⟨-, -, -, -, hh⟩ := tester_fields p t h
  constructor
  · rw [hh, parseStandards_snd]
    constructor
    · intro hm
      obtain ⟨h1, h2⟩ := commaSeparated_splitComma p.standards.toList
      exact ⟨splitComma p.standards.toList, h1.symm, h2, hm⟩
    · rintro ⟨tokens, h1, h2, h3⟩
      have hne : tokens ≠ [] := by
        intro h0
        rw [h0] at h3
        cases h3
      rw [h1, splitComma_commaSeparated tokens hne h2]
      exact h3
  · intro hf url ra msgs
    have hH : t.testHTML msgs = [] := by
      unfold Tester.testHTML
      rw [hf]
      rfl
    obtain ⟨h1, h2⟩ := t.run_success_pair url ra msgs
    rw [hH] at h1 h2
    simp only [List.append_nil] at h1
    simp only [List.nil_append] at h2
    exact ⟨hH, h2, h1⟩

/-- Witness of `htmlStandard_iff_token`: the standards `WCAG2AA,HTML` switch markup
validation on, and the standards `WCAG2AA` leave it off, so the markup adapter hands
over the empty list. -/
theorem htmlStandard_iff_token_witness :
    (∃ tokens : List (List Char), "WCAG2AA,HTML".toList = commaSeparated tokens ∧
        (∀ tok ∈ tokens, ∀ c ∈ tok, codeOf c ≠ 44) ∧ "HTML".toList ∈ tokens) ∧
    Tester.testHTML ⟨"WCAG2AA", false, 0, none, none⟩ [⟨"error", none, "Stray end tag."⟩] = [] :=
  ⟨(htmlStandard_iff_token ⟨"WCAG2AA,HTML", none, none, none⟩
      ⟨"WCAG2AA", true, 0, none, none⟩ (by decide)).1.mp rfl,
    ((htmlStandard_iff_token ⟨"WCAG2AA", none, none, none⟩
      ⟨"WCAG2AA", false, 0, none, none⟩ (by decide)).2 rfl "http://example.org/" []
      [⟨"error", none, "Stray end tag."⟩]).1⟩

/-- The call `splice(index, 1)` at the index of a token removes its first occurrence. -/
lemma spliceOne_indexOf? (x : List Char) (parts : List (List Char)) :
    ∀ i, parts.indexOf? x = some i → spliceOne i parts = parts.erase x := by
  induction parts with
  | nil =>
    intro i h
    cases h
  | cons a as ih =>
    intro i h
    unfold List.indexOf? at h ih
    rw [List.findIdx?_cons] at h
    rw [List.erase_cons]
    by_cases hax : (a == x) = true
    · rw [if_pos hax] at h ⊢
      simp only [Option.some.injEq] at h
      subst h
      rfl
    · rw [if_neg hax] at h ⊢
      rw [List.findIdx?_succ] at h
      cases hj : List.findIdx? (fun y => y == x) as 0 with
      | none => rw [hj] at h; cases h
      | some j =>
        rw [hj] at h
        simp only [Option.map_some', Option.some.injEq] at h
        subst h
        show a :: spliceOne j as = a :: as.erase x
        rw [ih j hj]

/-- The derived standard name is empty when every token of the standards is `HTML` or
empty and `HTML` occurs at most once. -/
lemma parseStandards_fst_empty (standards : String)
    (h1 : ∀ tok ∈ splitComma standards.toList, tok = "HTML".toList ∨ tok = [])
    (h2 : (splitComma standards.toList).count "HTML".toList ≤ 1) :
    (parseStandards standards).1 = "" := by
  have hdef : parseStandards standards =
      match (splitComma standards.toList).indexOf? "HTML".toList with
      | some i => (String.mk (spliceOne i (splitComma standards.toList)).flatten, true)
      | none => (String.mk (splitComma standards.toList).flatten, false) := rfl
  rw [hdef]
  cases h : (splitComma standards.toList).indexOf? "HTML".toList with
  | none =>
    have hn := (indexOf?_eq_none_iff _ _).mp h
    have : (splitComma standards.toList).flatten = [] := by
      rw [List.flatten_eq_nil_iff]
      intro l hl
      rcases h1 l hl with h3 | h3
      · exact absurd (h3 ▸ hl) hn
      · exact h3
    show String.mk (splitComma standards.toList).flatten = ""
    rw [this]
  | some i =>
    have : (spliceOne i (splitComma standards.toList)).flatten = [] := by
      rw [spliceOne_indexOf? _ _ i h, List.flatten_eq_nil_iff]
      intro l hl
      rcases h1 l (List.mem_of_mem_erase hl) with h3 | h3
      · exfalso
        rw [h3] at hl
        have hc := List.one_le_count_iff.mpr hl
        rw [List.count_erase_self] at hc
        omega
      · exact h3
    show String.mk (spliceOne i (splitComma standards.toList)).flatten = ""
    rw [this]

/-- C15 (as stated, refuted): the standards string `HTML,HTML` has no token other than
`HTML`, yet the derived standard name is `HTML`, not the empty string, and the
accessibility adapter hands on what the engine produced: its error, or its results. -/
theorem a11yStandard_html_twice :
    "HTML,HTML".toList = commaSeparated ["HTML".toList, "HTML".toList] ∧
    (∀ tok ∈ splitComma "HTML,HTML".toList, tok = "HTML".toList) ∧
    tester ⟨"HTML,HTML", none, none, none⟩ = some ⟨"HTML", true, 0, none, none⟩ ∧
    Tester.testA11y ⟨"HTML", true, 0, none, none⟩ (some "boom") [] = (some "boom", []) ∧
    Tester.testA11y ⟨"HTML", true, 0, none, none⟩ none [⟨"error", some "c", "", none, "m"⟩] =
      (none, [⟨"error", some "c", "", none, "m"⟩]) := by
  decide

/-- C15 (amended): when every token of the standards string is `HTML` or empty and
`HTML` occurs at most once, the derived standard name is empty, and for every URL the
accessibility adapter completes on the success channel with the empty list, whatever
the engine would produce. -/
theorem testA11y_without_standard (p : Program) (t : Tester) (h : tester p = some t)
    (tokens : List (List Char)) (hs : p.standards.toList = commaSeparated tokens)
    (hc : ∀ tok ∈ tokens, ∀ c ∈ tok, codeOf c ≠ 44)
    (h1 : ∀ tok ∈ tokens, tok = "HTML".toList ∨ tok = [])
    (h2 : tokens.count "HTML".toList ≤ 1) :
    t.a11yStandard = "" ∧
    ∀ (error : Option String) (results : List RawResult),
      t.testA11y error results = (none, []) ∧
      ∀ (url : String) (e : Episode),
        t.step url e (.a11y error results) =
          ({ e with _onSuccess :=
              (e._onSuccess.call Effect.onSuccess url [] Effect.logResults).1 },
            (e._onSuccess.call Effect.onSuccess url [] Effect.logResults).2) := by
  obtain ⟨-, -, -, ha, -⟩ := tester_fields p t h
  have hempty : t.a11yStandard = "" := by
    rw [ha]
    by_cases hne : tokens = []
    · subst hne
      have hnil : p.standards.toList = [] := hs
      apply parseStandards_fst_empty
      · rw [hnil]
        intro tok ht
        right
        simpa [splitComma] using ht
      · rw [hnil]
        decide
    · have hsplit : splitComma p.standards.toList = tokens := by
        rw [hs, splitComma_commaSeparated tokens hne hc]
      apply parseStandards_fst_empty
      · rw [hsplit]; exact h1
      · rw [hsplit]; exact h2
  refine ⟨hempty, ?_⟩
  intro error results
  have hA : t.testA11y error results = (none, []) := by
    unfold Tester.testA11y
    rw [hempty]
    rfl
  refine ⟨hA, ?_⟩
  intro url e
  simp only [Tester.step, hA]
  rfl

/-- Witness of `testA11y_without_standard`: with the standards string `HTML` the
adapter completes with `(null, [])` even when the engine would report an error. -/
theorem testA11y_without_standard_witness :
    Tester.a11yStandard ⟨"", true, 0, none, none⟩ = "" ∧
    Tester.testA11y ⟨"", true, 0, none, none⟩ (some "boom")
      [⟨"error", some "c", "", none, "m"⟩] = (none, []) :=
  ⟨(testA11y_without_standard ⟨"HTML", none, none, none⟩ ⟨"", true, 0, none, none⟩
      (by decide) ["HTML".toList] (by decide) (by decide) (by decide) (by decide)).1,
    ((testA11y_without_standard ⟨"HTML", none, none, none⟩ ⟨"", true, 0, none, none⟩
      (by decide) ["HTML".toList] (by decide) (by decide) (by decide) (by decide)).2
      (some "boom") [⟨"error", some "c", "", none, "m"⟩]).1⟩

/-! ## Theorems: levels of the delivered findings -/

/-- The accumulator after a call. -/
lemma LateAccumulator.call_accumulator {α : Type} (callback : List α → Effect) (url : String)
    (st : LateAccumulator α) (values : List α) (logger : List α → String → Effect) :
    (st.call callback url values logger).1.accumulator = st.accumulator ++ values := by
  simp only [LateAccumulator.call]
  split <;> rfl

/-- A call made by an accumulator carries the accumulator after the call. -/
lemma LateAccumulator.call_mem {α : Type} (callback : List α → Effect) (url : String)
    (st : LateAccumulator α) (values : List α) (logger : List α → String → Effect)
    (x : Effect) (hx : x ∈ (st.call callback url values logger).2) :
    x = logger (st.accumulator ++ values) url ∨ x = callback (st.accumulator ++ values) := by
  rcases LateAccumulator.call_cases callback url st values logger with ⟨_, h⟩ | ⟨_, h⟩
  · rw [h] at hx
    cases hx
  · rw [h] at hx
    simpa using hx

/-- Every finding that an adapter hands to `_onSuccess` passes the severity filter. -/
lemma Tester.contribution_pass (t : Tester) :
    (∀ rs, ∀ f ∈ t.a11yResults rs,
      filterByErrorLevels t.minimumErrorLevel (some f.level) = true) ∧
    (∀ msgs, ∀ f ∈ t.testHTML msgs,
      filterByErrorLevels t.minimumErrorLevel (some f.level) = true) := by
  constructor
  · intro rs f hf
    have := (List.mem_filter.mp hf).2
    simp only [Bool.and_eq_true] at this
    exact this.1.1
  · intro msgs f hf
    unfold Tester.testHTML at hf
    split at hf
    · cases hf
    · exact (List.mem_filter.mp hf).2

/-- A step keeps the accumulator of `_onSuccess` within the findings that pass the
severity filter, and so is every list it hands to `onSuccess`. -/
lemma Tester.step_pass (t : Tester) (url : String) (e : Episode) (c : Completion)
    (he : ∀ f ∈ e._onSuccess.accumulator,
      filterByErrorLevels t.minimumErrorLevel (some f.level) = true) :
    (∀ f ∈ (t.step url e c).1._onSuccess.accumulator,
      filterByErrorLevels t.minimumErrorLevel (some f.level) = true) ∧
    (∀ acc, Effect.onSuccess acc ∈ (t.step url e c).2 → ∀ f ∈ acc,
      filterByErrorLevels t.minimumErrorLevel (some f.level) = true) := by
  obtain ⟨hA, hH⟩ := t.contribution_pass
  have key : ∀ values : List Finding,
      (∀ f ∈ values, filterByErrorLevels t.minimumErrorLevel (some f.level) = true) →
      (∀ f ∈ (e._onSuccess.call Effect.onSuccess url values Effect.logResults).1.accumulator,
        filterByErrorLevels t.minimumErrorLevel (some f.level) = true) ∧
      (∀ acc, Effect.onSuccess acc ∈
          (e._onSuccess.call Effect.onSuccess url values Effect.logResults).2 → ∀ f ∈ acc,
        filterByErrorLevels t.minimumErrorLevel (some f.level) = true) := by
    intro values hv
    have hall : ∀ f ∈ e._onSuccess.accumulator ++ values,
        filterByErrorLevels t.minimumErrorLevel (some f.level) = true := by
      intro f hf
      rcases List.mem_append.mp hf with h | h
      · exact he f h
      · exact hv f h
    constructor
    · rw [LateAccumulator.call_accumulator]
      exact hall
    · intro acc hacc
      rcases LateAccumulator.call_mem _ _ _ _ _ _ hacc with h | h
      · cases h
      · simp only [Effect.onSuccess.injEq] at h
        rw [h]
        exact hall
  cases c with
  | a11y error results =>
    simp only [Tester.step]
    split
    · rename_i err x hx
      refine ⟨he, ?_⟩
      intro acc hacc
      rcases LateAccumulator.call_mem _ _ _ _ _ _ hacc with h | h <;> cases h
    · rename_i rs hx
      exact key _ (hA rs)
  | html messages =>
    simp only [Tester.step]
    exact key _ (hH messages)

/-- Every list handed to `onSuccess` holds only findings that pass the severity
filter, from any state whose accumulator does. -/
lemma Tester.runFrom_pass (t : Tester) (url : String) (cs : List Completion) :
    ∀ e : Episode,
      (∀ f ∈ e._onSuccess.accumulator,
        filterByErrorLevels t.minimumErrorLevel (some f.level) = true) →
      ∀ acc, Effect.onSuccess acc ∈ (t.runFrom url e cs).2 → ∀ f ∈ acc,
        filterByErrorLevels t.minimumErrorLevel (some f.level) = true := by
  induction cs with
  | nil =>
    intro e _ acc hacc
    cases hacc
  | cons c cs ih =>
    intro e he acc hacc
    obtain ⟨h1, h2⟩ := t.step_pass url e c he
    simp only [Tester.runFrom, List.mem_append] at hacc
    rcases hacc with h | h
    · exact h2 acc h
    · exact ih _ h1 acc h

/-- A level of rank 3 is the level `error`. -/
lemma errorLevelToInteger_ge_three (l : String) (h : 3 ≤ errorLevelToInteger (some l)) :
    l = "error" := by
  unfold errorLevelToInteger at h
  split at h <;> simp_all

/-- C16 (what the code does): without a recognised `errorLevel` the minimum rank is 0,
and a validator message of type `non-document-error`, or an engine result of an
unknown type, reaches `onSuccess` with that type as its level, which is none of
`error`, `warning` and `notice`. -/
theorem onSuccess_level_outside :
    (tester ⟨"WCAG2AA,HTML", none, none, none⟩).map
        (fun t => t.run "http://example.org/"
          [.a11y none [], .html [⟨"non-document-error", none, "IO Error"⟩]]) =
      some [.logResults [htmlFinding ⟨"non-document-error", none, "IO Error"⟩]
              "http://example.org/",
            .onSuccess [htmlFinding ⟨"non-document-error", none, "IO Error"⟩]] ∧
    (htmlFinding ⟨"non-document-error", none, "IO Error"⟩).level ∉
      ["error", "warning", "notice"] ∧
    (tester ⟨"WCAG2AA,HTML", some "verbose", none, none⟩).map
        (fun t => t.run "http://example.org/"
          [.a11y none [⟨"unknown", some "c", "", none, "m"⟩], .html []]) =
      some [.logResults [a11yFinding ⟨"unknown", some "c", "", none, "m"⟩]
              "http://example.org/",
            .onSuccess [a11yFinding ⟨"unknown", some "c", "", none, "m"⟩]] ∧
    (a11yFinding ⟨"unknown", some "c", "", none, "m"⟩).level ∉
      ["error", "warning", "notice"] := by
  decide

/-- C17: with the standards `WCAG2AA,HTML` and the minimum level `error`, one engine
result of type `error` and one validator message of type `warning` give, in either
order of completion, exactly the accessibility finding to `onSuccess`; and with the
minimum level `error`, whatever the rest of the configuration and the completions,
every finding handed to `onSuccess` has the level `error`. -/
theorem end_to_end_error_level :
    (∀ url : String,
      (tester ⟨"WCAG2AA,HTML", some "error", none, none⟩).map
          (fun t =>
            (t.run url [.html [⟨"warning", some "<p>", "Obsolete."⟩],
                        .a11y none [⟨"error", some "WCAG2AA.1_1", "<img>", some "img", "Alt."⟩]],
             t.run url [.a11y none [⟨"error", some "WCAG2AA.1_1", "<img>", some "img", "Alt."⟩],
                        .html [⟨"warning", some "<p>", "Obsolete."⟩]])) =
        some
          ([.logResults [⟨"a11y", "error", some "WCAG2AA.1_1", "<img>", some "img", "Alt."⟩] url,
            .onSuccess [⟨"a11y", "error", some "WCAG2AA.1_1", "<img>", some "img", "Alt."⟩]],
           [.logResults [⟨"a11y", "error", some "WCAG2AA.1_1", "<img>", some "img", "Alt."⟩] url,
            .onSuccess [⟨"a11y", "error", some "WCAG2AA.1_1", "<img>", some "img", "Alt."⟩]])) ∧
    (∀ (p : Program) (t : Tester), tester p = some t → p.errorLevel = some "error" →
      ∀ (url : String) (cs : List Completion) (acc : List Finding),
        Effect.onSuccess acc ∈ t.run url cs → ∀ f ∈ acc, f.level = "error") := by
  constructor
  · intro url
    have ht : tester ⟨"WCAG2AA,HTML", some "error", none, none⟩ =
        some ⟨"WCAG2AA", true, 3, none, none⟩ := by decide
    rw [ht]
    simp only [Option.map_some', Option.some.injEq]
    obtain ⟨h1, h2⟩ := Tester.run_success_pair ⟨"WCAG2AA", true, 3, none, none⟩ url
      [⟨"error", some "WCAG2AA.1_1", "<img>", some "img", "Alt."⟩]
      [⟨"warning", some "<p>", "Obsolete."⟩]
    have hA : Tester.a11yResults ⟨"WCAG2AA", true, 3, none, none⟩
        (Tester.testA11y ⟨"WCAG2AA", true, 3, none, none⟩ none
          [⟨"error", some "WCAG2AA.1_1", "<img>", some "img", "Alt."⟩]).2 =
        [⟨"a11y", "error", some "WCAG2AA.1_1", "<img>", some "img", "Alt."⟩] := by decide
    have hH : Tester.testHTML ⟨"WCAG2AA", true, 3, none, none⟩
        [⟨"warning", some "<p>", "Obsolete."⟩] = [] := by decide
    rw [hA, hH] at h1 h2
    rw [h1, h2]
    rfl
  · intro p t ht hp url cs acc hacc f hf
    obtain ⟨-, -, hm, -⟩ := tester_fields p t ht
    have hpass := t.runFrom_pass url cs Episode.init (by intro f hf; cases hf) acc hacc f hf
    rw [hm, hp] at hpass
    have h3 : errorLevelToInteger (some "error") = 3 := by decide
    rw [h3] at hpass
    simp only [filterByErrorLevels, decide_eq_true_eq] at hpass
    exact errorLevelToInteger_ge_three _ hpass

/-- Witness of `end_to_end_error_level`: the finding handed to `onSuccess` in the
example has the level `error`. -/
theorem end_to_end_error_level_witness :
    (⟨"a11y", "error", some "WCAG2AA.1_1", "<img>", some "img", "Alt."⟩ : Finding).level =
      "error" :=
  end_to_end_error_level.2 ⟨"WCAG2AA,HTML", some "error", none, none⟩
    ⟨"WCAG2AA", true, 3, none, none⟩ (by decide) rfl "http://example.org/"
    [.html [⟨"warning", some "<p>", "Obsolete."⟩],
     .a11y none [⟨"error", some "WCAG2AA.1_1", "<img>", some "img", "Alt."⟩]]
    [⟨"a11y", "error", some "WCAG2AA.1_1", "<img>", some "img", "Alt."⟩] (by decide)
    ⟨"a11y", "error", some "WCAG2AA.1_1", "<img>", some "img", "Alt."⟩ (by decide)

/-- C18: the `testHTML` callback never touches `_onError`; in an episode in which each
adapter completes once, in either order, the counter of `_onError` is at least 1
afterwards, so it was decremented at most once, and no call of the error channel is
made, `onError` least of all; and when the accessibility adapter reports an error the
whole episode makes no call: not `onSuccess`, not `onError`, not the reporter. -/
theorem markup_never_on_error_channel (t : Tester) (url : String) (error : Option String)
    (ra : List RawResult) (msgs : List VnuMessage) :
    (∀ e : Episode, (t.step url e (.html msgs)).1._onError = e._onError) ∧
    1 ≤ (t.runFrom url Episode.init [.a11y error ra, .html msgs]).1._onError.counter ∧
    1 ≤ (t.runFrom url Episode.init [.html msgs, .a11y error ra]).1._onError.counter ∧
    (t.run url [.a11y error ra, .html msgs]).filter Effect.isErrorChannel = [] ∧
    (t.run url [.html msgs, .a11y error ra]).filter Effect.isErrorChannel = [] ∧
    (∀ err, (t.testA11y error ra).1 = some err →
      t.run url [.a11y error ra, .html msgs] = [] ∧
      t.run url [.html msgs, .a11y error ra] = []) := by
  refine ⟨fun e => rfl, ?_, ?_, ?_, ?_, ?_⟩
  · rcases h : t.testA11y error ra with ⟨x, rs⟩
    cases x <;>
      simp [Tester.runFrom, Tester.step, Episode.init, lateAccumulator,
        LateAccumulator.call, h]
  · rcases h : t.testA11y error ra with ⟨x, rs⟩
    cases x <;>
      simp [Tester.runFrom, Tester.step, Episode.init, lateAccumulator,
        LateAccumulator.call, h]
  · rcases h : t.testA11y error ra with ⟨x, rs⟩
    cases x <;>
      simp [Tester.run, Tester.runFrom, Tester.step, Episode.init, lateAccumulator,
        LateAccumulator.call, h, Effect.isErrorChannel]
  · rcases h : t.testA11y error ra with ⟨x, rs⟩
    cases x <;>
      simp [Tester.run, Tester.runFrom, Tester.step, Episode.init, lateAccumulator,
        LateAccumulator.call, h, Effect.isErrorChannel]
  · intro err herr
    rcases h : t.testA11y error ra with ⟨x, rs⟩
    rw [h] at herr
    simp only at herr
    subst herr
    constructor <;>
      simp [Tester.run, Tester.runFrom, Tester.step, Episode.init, lateAccumulator,
        LateAccumulator.call, h]

/-- Witness of `markup_never_on_error_channel`: the engine reports the error `boom`
and the validator an empty report. -/
theorem markup_never_on_error_channel_witness :
    Tester.run ⟨"WCAG2AA", true, 0, none, none⟩ "http://example.org/"
        [.a11y (some "boom") [], .html []] = [] ∧
    Tester.run ⟨"WCAG2AA", true, 0, none, none⟩ "http://example.org/"
        [.html [], .a11y (some "boom") []] = [] :=
  (markup_never_on_error_channel ⟨"WCAG2AA", true, 0, none, none⟩ "http://example.org/"
    (some "boom") [] []).2.2.2.2.2 "boom" (by decide)

/-! ## Theorems: `lateAccumulator` on its own -/

/-- Once the counter is `0` or less, further calls only accumulate their payloads. -/
lemma LateAccumulator.callAll_spent {α : Type} (callback : List α → Effect) (url : String)
    (cs : List (List α × (List α → String → Effect))) :
    ∀ st : LateAccumulator α, st.counter ≤ 0 →
      (LateAccumulator.callAll callback url st cs).2 = [] ∧
      (LateAccumulator.callAll callback url st cs).1.accumulator =
        st.accumulator ++ (cs.map Prod.fst).flatten := by
  induction cs with
  | nil =>
    intro st _
    simp [LateAccumulator.callAll]
  | cons c cs ih =>
    intro st hst
    have hsil := LateAccumulator.call_silent callback url st c.1 c.2 (by omega)
    have hcnt := LateAccumulator.call_counter callback url st c.1 c.2
    have hacc := LateAccumulator.call_accumulator callback url st c.1 c.2
    obtain ⟨h1, h2⟩ := ih (st.call callback url c.1 c.2).1 (by rw [hcnt]; omega)
    simp only [LateAccumulator.callAll, hsil, h1, h2, hacc, List.map_cons, List.flatten_cons,
      List.append_assoc, List.append_nil, and_self]

/-- C19: for the function built by `lateAccumulator(2, callback)` and any finite
sequence of calls, no call is made when the sequence has fewer than two calls;
otherwise nothing happens at the first call, the second call invokes its logger and
then the callback, once, with the first payload followed by the second, and every
later call adds its payload to the accumulator without invoking the callback or a
logger. -/
theorem lateAccumulator_two {α : Type} (callback : List α → Effect) (url : String)
    (calls : List (List α × (List α → String → Effect))) :
    (calls.length < 2 →
      (LateAccumulator.callAll callback url (lateAccumulator 2) calls).2 = []) ∧
    (∀ c1 c2 rest, calls = c1 :: c2 :: rest →
      (LateAccumulator.callAll callback url (lateAccumulator 2) [c1]).2 = [] ∧
      (LateAccumulator.callAll callback url (lateAccumulator 2) [c1, c2]).2 =
        [c2.2 (c1.1 ++ c2.1) url, callback (c1.1 ++ c2.1)] ∧
      (LateAccumulator.callAll callback url
        (LateAccumulator.callAll callback url (lateAccumulator 2) [c1, c2]).1 rest).2 = [] ∧
      (LateAccumulator.callAll callback url (lateAccumulator 2) calls).2 =
        [c2.2 (c1.1 ++ c2.1) url, callback (c1.1 ++ c2.1)] ∧
      (LateAccumulator.callAll callback url (lateAccumulator 2) calls).1.accumulator =
        c1.1 ++ c2.1 ++ (rest.map Prod.fst).flatten) := by
  constructor
  · intro hlen
    match calls, hlen with
    | [], _ => rfl
    | [c], _ =>
      simp [LateAccumulator.callAll, LateAccumulator.call, lateAccumulator]
  · intro c1 c2 rest hcalls
    subst hcalls
    have h2 : LateAccumulator.callAll callback url (lateAccumulator 2) [c1, c2] =
        ({ counter := 0, accumulator := c1.1 ++ c2.1 },
          [c2.2 (c1.1 ++ c2.1) url, callback (c1.1 ++ c2.1)]) := by
      simp [LateAccumulator.callAll, LateAccumulator.call, lateAccumulator]
    obtain ⟨h3, h4⟩ := LateAccumulator.callAll_spent callback url rest
      ({ counter := 0, accumulator := c1.1 ++ c2.1 } : LateAccumulator α) (le_refl _)
    have hall : LateAccumulator.callAll callback url (lateAccumulator 2) (c1 :: c2 :: rest) =
        ((LateAccumulator.callAll callback url
            ({ counter := 0, accumulator := c1.1 ++ c2.1 } : LateAccumulator α) rest).1,
          [c2.2 (c1.1 ++ c2.1) url, callback (c1.1 ++ c2.1)] ++
            (LateAccumulator.callAll callback url
              ({ counter := 0, accumulator := c1.1 ++ c2.1 } : LateAccumulator α) rest).2) := by
      simp [LateAccumulator.callAll, LateAccumulator.call, lateAccumulator]
    refine ⟨?_, ?_, ?_, ?_, ?_⟩
    · simp [LateAccumulator.callAll, LateAccumulator.call, lateAccumulator]
    · rw [h2]
    · rw [h2]
      exact h3
    · rw [hall, h3]
      rfl
    · rw [hall]
      exact h4

/-- Witness of `lateAccumulator_two`: three calls on the accumulator of the success
channel; the third payload is accumulated and no further call is made. -/
theorem lateAccumulator_two_witness :
    (LateAccumulator.callAll Effect.onSuccess "http://example.org/" (lateAccumulator 2)
        [([a11yFinding ⟨"error", some "c", "", none, "m"⟩], Effect.logResults)]).2 = [] ∧
    (LateAccumulator.callAll Effect.onSuccess "http://example.org/" (lateAccumulator 2)
        [([a11yFinding ⟨"error", some "c", "", none, "m"⟩], Effect.logResults),
         ([], Effect.logResults),
         ([htmlFinding ⟨"error", none, "x"⟩], Effect.logResults)]).2 =
      [.logResults ([a11yFinding ⟨"error", some "c", "", none, "m"⟩] ++ [])
          "http://example.org/",
       .onSuccess ([a11yFinding ⟨"error", some "c", "", none, "m"⟩] ++ [])] :=
  ⟨(lateAccumulator_two Effect.onSuccess "http://example.org/"
      [([a11yFinding ⟨"error", some "c", "", none, "m"⟩], Effect.logResults)]).1 (by decide),
    ((lateAccumulator_two Effect.onSuccess "http://example.org/"
      [([a11yFinding ⟨"error", some "c", "", none, "m"⟩], Effect.logResults),
       ([], Effect.logResults),
       ([htmlFinding ⟨"error", none, "x"⟩], Effect.logResults)]).2 _ _ _ rfl).2.2.2.1⟩

/-! ## Theorems: exclude predicate -/

/-- The regular expression of a code filter does not match the empty string. -/
lemma codesRegex_test_empty (pattern : String) (r : Node) (h : codesRegex pattern = some r) :
    r.test "" = false := by
  unfold codesRegex at h
  simp only [Option.map_eq_some'] at h
  obtain ⟨as, _, rfl⟩ := h
  rfl

/-- C20: with an exclude pattern configured, the exclude predicate accepts a code
exactly when the code is a non-empty string that the regular expression of the pattern
does not match; that expression does not match the empty string, and yet no finding
whose code is `null` or the empty string is handed over by the accessibility
adapter. -/
theorem excludeByCodes_active (p : Program) (t : Tester) (h : tester p = some t)
    (pattern : String) (hp : p.excludeByCodes = some pattern) :
    ∃ r, codesRegex pattern = some r ∧ t.excludeByCodesRegex = some r ∧
      (∀ code, t.excludeByCodes code = true ↔
        ∃ s, code = some s ∧ s.toList ≠ [] ∧ r.test s = false) ∧
      t.excludeByCodes none = false ∧
      t.excludeByCodes (some "") = false ∧
      r.test "" = false ∧
      (∀ results, ∀ f ∈ t.a11yResults results, f.code ≠ none ∧ f.code ≠ some "") := by
  obtain ⟨-, he, -⟩ := tester_fields p t h
  rw [hp] at he
  simp only [optionalRegex, Option.map_eq_some'] at he
  obtain ⟨r, hr, hre⟩ := he
  have hre2 : t.excludeByCodesRegex = some r := hre.symm
  have hiff : ∀ code, t.excludeByCodes code = true ↔
      ∃ s, code = some s ∧ s.toList ≠ [] ∧ r.test s = false := by
    intro code
    unfold Tester.excludeByCodes
    rw [hre2]
    cases code with
    | none => simp
    | some s =>
      simp only [truthy, Bool.and_eq_true, Bool.not_eq_true', List.isEmpty_eq_false,
        Option.some.injEq, exists_eq_left']
  have hnone : t.excludeByCodes none = false := by
    cases hb : t.excludeByCodes none with
    | false => rfl
    | true =>
      obtain ⟨s, hs, -⟩ := (hiff none).mp hb
      cases hs
  have hempty : t.excludeByCodes (some "") = false := by
    cases hb : t.excludeByCodes (some "") with
    | false => rfl
    | true =>
      obtain ⟨s, hs, hne, -⟩ := (hiff (some "")).mp hb
      simp only [Option.some.injEq] at hs
      subst hs
      exact absurd rfl hne
  refine ⟨r, hr, hre2, hiff, hnone, hempty, codesRegex_test_empty pattern r hr, ?_⟩
  intro results f hf
  have hx := (List.mem_filter.mp hf).2
  simp only [Bool.and_eq_true] at hx
  have hex := hx.2
  constructor
  · intro hc
    rw [hc, hnone] at hex
    cases hex
  · intro hc
    rw [hc, hempty] at hex
    cases hex

/-- Witness of `excludeByCodes_active`: with the exclude pattern `H37`, an engine
result without a code and one with the empty code are both dropped, although the
level of each passes. -/
theorem excludeByCodes_active_witness :
    ∃ r, codesRegex "H37" = some r ∧
      Tester.excludeByCodesRegex ⟨"WCAG2AA", false, 0, none,
        some (.seq .wordBoundary (.seq (literalNode "H37".toList) .wordBoundary))⟩ = some r ∧
      Tester.a11yResults ⟨"WCAG2AA", false, 0, none,
        some (.seq .wordBoundary (.seq (literalNode "H37".toList) .wordBoundary))⟩
        [⟨"error", none, "", none, "m"⟩, ⟨"error", some "", "", none, "m"⟩,
         ⟨"error", some "WCAG2AA.H57", "", none, "m"⟩] =
        [a11yFinding ⟨"error", some "WCAG2AA.H57", "", none, "m"⟩] :=
  match excludeByCodes_active ⟨"WCAG2AA", none, none, some "H37"⟩
      ⟨"WCAG2AA", false, 0, none,
        some (.seq .wordBoundary (.seq (literalNode "H37".toList) .wordBoundary))⟩
      (by decide) "H37" rfl with
  | ⟨r, h1, h2, _⟩ => ⟨r, h1, h2, by decide⟩

end A11ym
